import Mathlib

/-!
# RQL (reflog-ql): a verified shallow embedding of the parser, validator and
autocomplete engine

This file embeds, in Lean, the core of the `reflog-ql` JavaScript/TypeScript
library (`javascript/src/parse.ts`, `javascript/src/schema.ts`,
`javascript/src/autocomplete.ts`) and proves properties about it.

Modelling conventions:
* JS strings are modelled as `List Char` (`LC`); all the inputs the library
  handles are ASCII single-line queries, and on the ASCII fragment the JS
  string operations used by the source (`toLowerCase`, `\s`, `trim`,
  `startsWith`, index arithmetic) agree with the character-wise functions
  defined here.
* Functions that `throw new ParseError(msg)` are embedded in
  `Except PErr`; each distinct `throw` site gets its own `PErr`
  constructor carrying the message's dynamic parts, so errors are
  distinguished exactly as the caller can distinguish the messages.
* Index-based `while` loops are embedded as recursion over the remaining
  suffix of the string.  Loops whose bodies are not structurally recursive
  take an explicit step budget (`fuel`); exhaustion yields a dedicated
  error/`none`.  Every loop of `parse.ts` consumes at least one character
  (or one token) per step, so the budgets chosen at the call sites cover
  every run; the invariant theorems below are proved for *every* budget, so
  nothing rests on a particular choice.  One loop of `autocomplete.ts`
  (`tokenizeWhereInner`) genuinely fails to advance on some inputs; its
  budget is kept as a parameter so that non-termination is expressible
  (`∀ fuel, … = none`).
* JS `number` token values: the tokenizer's numeric tokens keep the literal
  text (`raw`), which determines the JS number (`parseInt`/`parseFloat` of
  it); no claim below inspects the numeric value beyond its type tag.
* The source field `partial` (a Lean keyword) is rendered `partialStr`, and
  the query field `where` (also a keyword) is rendered `where_`.
-/

/-! ## Characters and JS-string helpers -/

/-- JS strings over the ASCII fragment, as lists of characters. -/
abbrev LC := List Char

/-- Coerce a Lean string literal to the `List Char` model. -/
def lc (s : String) : LC := s.data

/-- The ASCII characters matched by the JS regex class `\s`
(space, tab, LF, VT, FF, CR). -/
def isWsChar (c : Char) : Bool :=
  c = ' ' || c = '\t' || c = '\n' || c = '\x0b' || c = '\x0c' || c = '\r'

/-- ASCII decimal digit (JS regex `\d`). -/
def isDigitChar (c : Char) : Bool := '0' ≤ c && c ≤ '9'

/-- ASCII lowercasing of one character (what JS `toLowerCase` does on the
ASCII fragment). -/
def toLowerCh (c : Char) : Char :=
  if 'A' ≤ c ∧ c ≤ 'Z' then Char.ofNat (c.toNat + 32) else c

/-- JS `s.toLowerCase()` on the ASCII fragment. -/
def lcToLower (l : LC) : LC := l.map toLowerCh

/-- JS `s.trim()` on the ASCII fragment. -/
def lcTrim (l : LC) : LC :=
  ((l.dropWhile isWsChar).reverse.dropWhile isWsChar).reverse

/-- JS `s.startsWith(p)`. -/
def lcStartsWith (l p : LC) : Bool := p.isPrefixOf l

/-- JS `s.split(sep)` for a one-character separator: keeps empty pieces,
always returns at least one piece. -/
def splitOnChar (sep : Char) : LC → List LC
  | [] => [[]]
  | c :: r =>
    if c = sep then [] :: splitOnChar sep r
    else
      match splitOnChar sep r with
      | [] => [[c]]
      | h :: t => (c :: h) :: t

mutual

/-- JS `t.split(/\s+/)`, current piece accumulated in reverse: a
whitespace character ends the piece and a run of further whitespace is
absorbed. -/
def splitWsRunsGo : LC → LC → List LC
  | [], cur => [cur.reverse]
  | c :: r, cur =>
    if isWsChar c then cur.reverse :: splitWsRunsSkip r
    else splitWsRunsGo r (c :: cur)

/-- JS `t.split(/\s+/)`, inside a whitespace run. -/
def splitWsRunsSkip : LC → List LC
  | [] => [[]]
  | c :: r => if isWsChar c then splitWsRunsSkip r else splitWsRunsGo r [c]

end

/-- JS `t.split(/\s+/)`: split on maximal whitespace runs (a leading or
trailing run gives an empty piece, as in JS; the parser only applies this
to trimmed strings). -/
def splitWsRuns (l : LC) : List LC := splitWsRunsGo l []

/-- JS `parseInt(s, 10)`: optional sign, then a maximal digit prefix;
`none` models `NaN`. -/
def parseIntJs (l : LC) : Option Int :=
  let l := l.dropWhile isWsChar
  let core : LC → Option Nat := fun d =>
    let ds := d.takeWhile isDigitChar
    if ds.isEmpty then none
    else some (ds.foldl (fun n c => 10 * n + (c.toNat - '0'.toNat)) 0)
  match l with
  | '-' :: r => (core r).map (fun n => -(n : Int))
  | '+' :: r => (core r).map (fun n => (n : Int))
  | r => (core r).map (fun n => (n : Int))

/-- The JS regex `^-?\d+(\.\d+)?$` from `tokenizeWhere`. -/
def isNumericForm (l : LC) : Bool :=
  let body := match l with
    | '-' :: r => r
    | r => r
  let ds := body.takeWhile isDigitChar
  let rest := body.dropWhile isDigitChar
  !ds.isEmpty &&
    (rest.isEmpty ||
      (match rest with
       | '.' :: fr => !fr.isEmpty && fr.all isDigitChar
       | _ => false))

/-- First index of a character (JS `s.indexOf(c)`), `none` for `-1`. -/
def lcIndexOf (l : LC) (c : Char) : Option Nat := l.findIdx? (· = c)

/-! ## Schema model (`schema.ts`) -/

/-- The advisory type tag of a field (`FieldDef.type`). -/
inductive FieldType
  | string
  | number
  | boolean
deriving DecidableEq, Repr

/-- `FieldDef`: optional type tag and optional enumerated values. -/
structure FieldDef where
  type : Option FieldType := none
  values : Option (List LC) := none
deriving DecidableEq, Repr

/-- `EntityDef`: name, optional relations, optional ordered field map
(a JS `Record` iterated in insertion order, modelled as an association
list). -/
structure EntityDef where
  name : LC
  relations : Option (List LC) := none
  fields : Option (List (LC × FieldDef)) := none
deriving DecidableEq, Repr

/-- `Schema`: the ordered list of entity definitions. -/
structure Schema where
  entities : List EntityDef
deriving DecidableEq, Repr

/-- `defineSchema`. -/
def defineSchema (entities : List EntityDef) : Schema := ⟨entities⟩

/-- The `exampleSchema` constant of `schema.ts`. -/
def exampleSchema : Schema := defineSchema
  [ { name := lc "user"
    , relations := some [lc "posts", lc "comments", lc "profile"]
    , fields := some
        [ (lc "status", { type := some .string
                        , values := some [lc "active", lc "pending", lc "suspended"] })
        , (lc "role", { type := some .string
                      , values := some [lc "admin", lc "moderator", lc "user", lc "guest"] })
        , (lc "age", { type := some .number })
        , (lc "verified", { type := some .boolean }) ] }
  , { name := lc "users"
    , relations := some [lc "posts", lc "comments", lc "profile"]
    , fields := some
        [ (lc "status", { type := some .string
                        , values := some [lc "active", lc "pending", lc "suspended"] })
        , (lc "role", { type := some .string
                      , values := some [lc "admin", lc "moderator", lc "user", lc "guest"] })
        , (lc "age", { type := some .number })
        , (lc "verified", { type := some .boolean }) ] }
  , { name := lc "product"
    , relations := some [lc "reviews", lc "category"]
    , fields := some
        [ (lc "category", { type := some .string
                          , values := some [lc "archived", lc "electronics", lc "books"] })
        , (lc "price", { type := some .number })
        , (lc "stock", { type := some .number }) ] }
  , { name := lc "products"
    , relations := some [lc "reviews", lc "category"]
    , fields := some
        [ (lc "category", { type := some .string
                          , values := some [lc "archived", lc "electronics", lc "books"] })
        , (lc "price", { type := some .number })
        , (lc "stock", { type := some .number }) ] } ]

/-! ## Parse errors (`ParseError` of `parse.ts`)

One constructor per `throw` site, carrying the dynamic parts of its
message. -/

/-- The messages of `ParseError`, one constructor per `throw` site. -/
inductive PErr
  /-- "Unclosed quoted string" -/
  | unclosedQuote
  /-- "Unclosed quoted string in where clause" -/
  | unclosedQuoteWhere
  /-- "Unbalanced parentheses in where clause" -/
  | unbalancedParens
  /-- "Unbalanced or invalid where expression" -/
  | unbalancedOrInvalid
  /-- "Empty where clause" -/
  | emptyWhere
  /-- "Invalid where: OR with no left side" -/
  | orNoLeft
  /-- "Invalid where: OR with no right side" -/
  | orNoRight
  /-- "Invalid where: AND with no right side" -/
  | andNoRight
  /-- "Missing closing parenthesis" -/
  | missingCloseParen
  /-- "Empty parenthetical expression" -/
  | emptyParen
  /-- "Incomplete comparison in where clause" -/
  | incompleteComparison
  /-- "Invalid value in where comparison" -/
  | invalidValue
  /-- "Unexpected character in where clause" -/
  | unexpectedChar
  /-- "Empty or invalid where expression" -/
  | emptyOrInvalid
  /-- `Invalid clause "<clause>": expected key:value format …` -/
  | invalidClause (clause : LC)
  /-- `Duplicate top-level key: <key>` -/
  | duplicateKey (key : LC)
  /-- `<key> value must be non-empty` -/
  | emptyValue (key : LC)
  /-- "limit must be a valid integer" -/
  | limitInvalid
  /-- "limit must be non-negative" -/
  | limitNegative
  /-- "limit must be an integer without decimals" -/
  | limitDecimals
  /-- "Empty term in order list" -/
  | emptyOrderTerm
  /-- `Invalid order term "<field>": order must be a field name …` -/
  | orderFieldIsDir (field : LC)
  /-- `Invalid order direction "<tok>". Use asc or desc.` -/
  | invalidOrderDir (tok : LC)
  /-- "Empty relation name in include list" -/
  | emptyRelation
  /-- `Unknown top-level key: "<key>" …` -/
  | unknownKey (key : LC)
  /-- `Unknown entity "<e>". Known entities: …` -/
  | unknownEntity (entity : LC) (known : List LC)
  /-- `Unknown relation "<r>" for entity "<e>". Known relations: …` -/
  | unknownRelation (rel : LC) (entity : LC) (known : List LC)
  /-- `Unknown field(s) for entity "<e>": …. Known fields: …` -/
  | unknownFields (fields : List LC) (entity : LC) (known : List LC)
  /-- Embedding artifact: the step budget ran out.  Every loop of
  `parse.ts` consumes input each step, so the budgets used below never
  exhaust; theorems quantify over the budget, so nothing depends on this. -/
  | fuelExhausted
deriving DecidableEq, Repr

/-! ## Query tree (`RQLQuery` etc. of `parse.ts`) -/

/-- A comparison/order direction. -/
inductive OrderDir
  | asc
  | desc
deriving DecidableEq, Repr

/-- `RQLOrderTerm`. -/
structure RQLOrderTerm where
  field : LC
  dir : OrderDir
deriving DecidableEq, Repr

/-- A comparison value: JS `string | number | boolean`.  A number keeps the
literal text, which determines the JS number (`parseInt`/`parseFloat`). -/
inductive RQLValue
  | str (s : LC)
  | num (raw : LC)
  | bool (b : Bool)
deriving DecidableEq, Repr

/-- `RQLCondition`: the parser only ever builds the three shapes
`{field, op, value}`, `{and: […]}`, `{or: […]}`. -/
inductive RQLCondition
  | comparison (field : LC) (op : LC) (value : RQLValue)
  | and (children : List RQLCondition)
  | or (children : List RQLCondition)
deriving Repr

mutual

/-- Decidable equality of conditions (not derivable for the nested
inductive). -/
def RQLCondition.decEq : (a b : RQLCondition) → Decidable (a = b)
  | .comparison f1 o1 v1, .comparison f2 o2 v2 =>
    if h : f1 = f2 ∧ o1 = o2 ∧ v1 = v2 then
      isTrue (by obtain ⟨h1, h2, h3⟩ := h; rw [h1, h2, h3])
    else isFalse (by intro he; injection he with a b c; exact h ⟨a, b, c⟩)
  | .comparison .., .and _ => isFalse (by intro h; exact RQLCondition.noConfusion h)
  | .comparison .., .or _ => isFalse (by intro h; exact RQLCondition.noConfusion h)
  | .and _, .comparison .. => isFalse (by intro h; exact RQLCondition.noConfusion h)
  | .and _, .or _ => isFalse (by intro h; exact RQLCondition.noConfusion h)
  | .and l1, .and l2 =>
    match RQLCondition.decEqList l1 l2 with
    | isTrue h => isTrue (by rw [h])
    | isFalse h => isFalse (by intro he; injection he with x; exact h x)
  | .or _, .comparison .. => isFalse (by intro h; exact RQLCondition.noConfusion h)
  | .or _, .and _ => isFalse (by intro h; exact RQLCondition.noConfusion h)
  | .or l1, .or l2 =>
    match RQLCondition.decEqList l1 l2 with
    | isTrue h => isTrue (by rw [h])
    | isFalse h => isFalse (by intro he; injection he with x; exact h x)

/-- Decidable equality of condition lists. -/
def RQLCondition.decEqList : (a b : List RQLCondition) → Decidable (a = b)
  | [], [] => isTrue rfl
  | [], _ :: _ => isFalse (by simp)
  | _ :: _, [] => isFalse (by simp)
  | a :: as, b :: bs =>
    match RQLCondition.decEq a b, RQLCondition.decEqList as bs with
    | isTrue h1, isTrue h2 => isTrue (by rw [h1, h2])
    | isFalse h1, _ => isFalse (by simp [h1])
    | _, isFalse h2 => isFalse (by simp [h2])

end

instance : DecidableEq RQLCondition := RQLCondition.decEq

/-- `RQLQuery` (all fields optional; `where` and `include` are Lean
keywords, rendered `where_` and `include_`). -/
structure RQLQuery where
  entity : Option LC := none
  limit : Option Int := none
  order : Option (List RQLOrderTerm) := none
  include_ : Option (List LC) := none
  where_ : Option RQLCondition := none
deriving DecidableEq, Repr

/-! ## `tokenizeWhere` (`parse.ts`) -/

/-- `WhereToken`. -/
inductive WhereTok
  | paren (value : Char)
  | keyword (value : LC)
  | op (value : LC)
  | ident (value : LC) (raw : LC)
  | string (value : LC)
  | number (raw : LC)
  | boolean (value : Bool)
deriving DecidableEq, Repr

/-- The quoted-string scanner of `tokenizeWhere` (after the opening quote):
builds the unescaped value (`\x` → `x`); `none` means the closing quote was
never found (including a trailing backslash, which in JS skips past the end
of the string). -/
def quoteScanValue : LC → Option (LC × LC)
  | [] => none
  | '"' :: r => some ([], r)
  | ['\\'] => none
  | '\\' :: c :: r => (quoteScanValue r).map (fun p => (c :: p.1, p.2))
  | c :: r => (quoteScanValue r).map (fun p => (c :: p.1, p.2))

/-- The character class excluded from unquoted words: `[\s()"=<>!]`. -/
def isWordBreak (c : Char) : Bool :=
  isWsChar c || c = '(' || c = ')' || c = '"' || c = '=' || c = '<' || c = '>' || c = '!'

/-- Take the maximal unquoted word at the front (`while … wordChar`). -/
def takeWord (l : LC) : LC × LC :=
  (l.takeWhile (fun c => !isWordBreak c), l.dropWhile (fun c => !isWordBreak c))

/-- `OPS` matching at the head of the input, longest first
(`["!=", "<=", ">=", "=", "<", ">"]`). -/
def opPrefix : LC → Option (LC × LC)
  | '!' :: '=' :: r => some (lc "!=", r)
  | '<' :: '=' :: r => some (lc "<=", r)
  | '>' :: '=' :: r => some (lc ">=", r)
  | '=' :: r => some (lc "=", r)
  | '<' :: r => some (lc "<", r)
  | '>' :: r => some (lc ">", r)
  | _ => none

/-- Classification of a raw unquoted word (the `if`-chain at the end of
`tokenizeWhere`): keyword `and`/`or` (stored lowercased), boolean, number,
or identifier. -/
def classifyWord (raw : LC) : WhereTok :=
  if lcToLower raw = lc "and" ∨ lcToLower raw = lc "or" then
    .keyword (lcToLower raw)
  else if lcToLower raw = lc "true" then .boolean true
  else if lcToLower raw = lc "false" then .boolean false
  else if isNumericForm raw then .number raw
  else .ident raw raw

/-- The scanning loop of `tokenizeWhere`; one unit of fuel per iteration
(every iteration consumes at least one character). -/
def tokenizeWhereLoop (fuel : Nat) (l : LC) : Except PErr (List WhereTok) :=
  match l.dropWhile isWsChar with
  | [] => .ok []
  | c :: rest =>
    match fuel with
    | 0 => .error .fuelExhausted
    | fuel + 1 =>
      if c = '(' then (tokenizeWhereLoop fuel rest).map (.paren '(' :: ·)
      else if c = ')' then (tokenizeWhereLoop fuel rest).map (.paren ')' :: ·)
      else if c = '"' then
        match quoteScanValue rest with
        | none => .error .unclosedQuoteWhere
        | some (v, r) => (tokenizeWhereLoop fuel r).map (.string v :: ·)
      else
        match opPrefix (c :: rest) with
        | some (o, r) => (tokenizeWhereLoop fuel r).map (.op o :: ·)
        | none =>
          let (w, r) := takeWord (c :: rest)
          if w = [] then .error .unexpectedChar
          else (tokenizeWhereLoop fuel r).map (classifyWord w :: ·)

/-- `tokenizeWhere`. -/
def tokenizeWhere (inner : LC) : Except PErr (List WhereTok) :=
  tokenizeWhereLoop (inner.length + 1) inner

/-! ## `parseWhere` (`parse.ts`): recursive descent over the token list

The JS code walks the token array with a mutable index `pos`; the embedding
passes the remaining suffix of the token list instead (the index never
moves backwards).  Every mutual call spends one unit of fuel; the top-level
budget in `parseWhere` covers any run (each loop step consumes tokens), and
the invariant theorems quantify over the budget. -/

/-- `left.or ? left.or : [left]` — splice an `Or`'s children, else the node
itself. -/
def orChildren : RQLCondition → List RQLCondition
  | .or l => l
  | c => [c]

/-- `t.and ? t.and : [t]`. -/
def andChildren : RQLCondition → List RQLCondition
  | .and l => l
  | c => [c]

/-- `t.type === "keyword" && (t.value === "or" || t.value === "OR")`. -/
def isOrKw : WhereTok → Bool
  | .keyword kw => kw = lc "or" || kw = lc "OR"
  | _ => false

/-- `t.type === "keyword" && (t.value === "and" || t.value === "AND")`. -/
def isAndKw : WhereTok → Bool
  | .keyword kw => kw = lc "and" || kw = lc "AND"
  | _ => false

/-- Result of one recursive-descent entry point: the parsed condition (or
`null`) and the remaining tokens. -/
abbrev ParseRes := Except PErr (Option RQLCondition × List WhereTok)

/-- `parseComparison`: field (ident or string), optional operator
(default `"="`), then a value token.  On a non-field first token it returns
`null` without consuming anything. -/
def parseComparisonF (toks : List WhereTok) : ParseRes :=
  match toks with
  | [] => .ok (none, [])
  | fieldTok :: rest =>
    let cont : LC → ParseRes := fun field =>
      let (op, t2) : LC × List WhereTok :=
        match rest with
        | .op o :: r => (o, r)
        | _ => (lc "=", rest)
      match t2 with
      | [] => .error .incompleteComparison
      | valueTok :: t3 =>
        match valueTok with
        | .ident _ raw => .ok (some (.comparison field op (.str raw)), t3)
        | .string v => .ok (some (.comparison field op (.str v)), t3)
        | .number raw => .ok (some (.comparison field op (.num raw)), t3)
        | .boolean b => .ok (some (.comparison field op (.bool b)), t3)
        | _ => .error .invalidValue
    match fieldTok with
    | .ident _ raw => cont raw
    | .string v => cont v
    | _ => .ok (none, toks)

mutual

/-- `parseOr`: an `And` level, then optionally `or` and a recursive `Or`;
children of nested `Or`s are spliced (flattening). -/
def parseOrF : Nat → List WhereTok → ParseRes
  | 0, _ => .error .fuelExhausted
  | fuel + 1, toks => do
    let (left, t1) ← parseAndF fuel toks
    match t1 with
    | t :: t2 =>
      if isOrKw t then
        match left with
        | none => .error .orNoLeft
        | some l => do
          let (right, t3) ← parseOrF fuel t2
          match right with
          | none => .error .orNoRight
          | some r => .ok (some (.or (orChildren l ++ orChildren r)), t3)
      else .ok (left, t1)
    | [] => .ok (left, t1)

/-- `parseAnd`: a first primary, then the adjacency/`and` loop; nested
`And`s are spliced (flattening); a single term is returned as itself. -/
def parseAndF : Nat → List WhereTok → ParseRes
  | 0, _ => .error .fuelExhausted
  | fuel + 1, toks => do
    let (t0, t1) ← parsePrimaryF fuel toks
    match t0 with
    | none => .ok (none, t1)
    | some first => do
      let (terms, t2) ← parseAndLoopF fuel [first] t1
      match terms with
      | [single] => .ok (some single, t2)
      | _ => .ok (some (.and (terms.flatMap andChildren)), t2)

/-- The `while` loop of `parseAnd`: stop before `or`, consume an explicit
`and`, or take an adjacent primary; stop when a primary is `null`. -/
def parseAndLoopF : Nat → List RQLCondition → List WhereTok →
    Except PErr (List RQLCondition × List WhereTok)
  | 0, _, _ => .error .fuelExhausted
  | fuel + 1, terms, toks =>
    match toks with
    | [] => .ok (terms, toks)
    | t :: rest =>
      if isOrKw t then .ok (terms, t :: rest)
      else if isAndKw t then do
        let (term, t2) ← parsePrimaryF fuel rest
        match term with
        | none => .error .andNoRight
        | some tm => parseAndLoopF fuel (terms ++ [tm]) t2
      else do
        let (term, t2) ← parsePrimaryF fuel (t :: rest)
        match term with
        | none => .ok (terms, t2)
        | some tm => parseAndLoopF fuel (terms ++ [tm]) t2

/-- `parsePrimary`: a parenthesised `Or` (requiring the closing paren,
rejecting an empty group) or a comparison. -/
def parsePrimaryF : Nat → List WhereTok → ParseRes
  | 0, _ => .error .fuelExhausted
  | fuel + 1, toks =>
    match toks with
    | .paren '(' :: rest => do
      let (inner, t1) ← parseOrF fuel rest
      match t1 with
      | .paren ')' :: t2 =>
        match inner with
        | none => .error .emptyParen
        | some c => .ok (some c, t2)
      | _ => .error .missingCloseParen
    | _ => parseComparisonF toks

end

/-- `parseWhere`: tokenize, reject an empty token list, run `parseOr`, then
reject leftover tokens and a `null` result. -/
def parseWhere (inner : LC) : Except PErr RQLCondition := do
  let tokens ← tokenizeWhere inner
  if tokens = [] then .error .emptyWhere
  else do
    let (result, remaining) ← parseOrF (4 * tokens.length + 8) tokens
    if remaining ≠ [] then .error .unbalancedOrInvalid
    else
      match result with
      | none => .error .emptyOrInvalid
      | some c => .ok c

/-! ## `unwrapWhere` (`parse.ts`) -/

/-- The parenthesis-depth walk of `unwrapWhere` (over every character,
quotes included, exactly as in the source): errors on a negative depth and
on depth zero before the last character; returns the final depth. -/
def parenDepthCheck : LC → Int → Except PErr Int
  | [], depth => .ok depth
  | c :: rest, depth =>
    let depth' : Int :=
      if c = '(' then depth + 1 else if c = ')' then depth - 1 else depth
    if depth' < 0 then .error .unbalancedParens
    else if depth' = 0 ∧ rest ≠ [] then .error .unbalancedOrInvalid
    else parenDepthCheck rest depth'

/-- `unwrapWhere`: strip one outermost balanced parenthesis pair (if the
trimmed value starts with `(`), else return the trimmed value. -/
def unwrapWhere (value : LC) : Except PErr LC :=
  let s := lcTrim value
  match s with
  | '(' :: _ => do
    let d ← parenDepthCheck s 0
    if d ≠ 0 then .error .unbalancedParens
    else if s.getLast? ≠ some ')' then .error .unbalancedParens
    else .ok (lcTrim (s.drop 1).dropLast)
  | _ => .ok s

/-! ## `splitTopLevel` (`parse.ts`) -/

/-- The raw quoted-string skipper of `splitTopLevel` (after the opening
quote): keeps the consumed characters verbatim, including the closing
quote; `\` skips two characters; `none` means no closing quote (also when
a trailing `\` skips past the end). -/
def rawQuoteScan : LC → Option (LC × LC)
  | [] => none
  | '"' :: r => some (['"'], r)
  | ['\\'] => none
  | '\\' :: c :: r => (rawQuoteScan r).map (fun p => ('\\' :: c :: p.1, p.2))
  | c :: r => (rawQuoteScan r).map (fun p => (c :: p.1, p.2))

/-- Does the string start with one of the five recognised keys followed by
a colon?  The `splitTopLevel` regex `(\s)(entity|limit|order|include|where):`
carries no `i` flag: lowercase only. -/
def startsWithRecognisedKey (l : LC) : Bool :=
  ([lc "entity:", lc "limit:", lc "order:", lc "include:", lc "where:"]).any
    (fun k => k.isPrefixOf l)

/-- Split at the first position where a whitespace character is directly
followed by a recognised key and a colon (the `order:` clause boundary
search of `splitTopLevel`); returns `(before, suffixStartingAtWs)`, with
the whole input as `before` when there is no match. -/
def splitAtNextKeyCS : LC → LC × LC
  | [] => ([], [])
  | c :: r =>
    if isWsChar c ∧ startsWithRecognisedKey r then ([], c :: r)
    else
      let p := splitAtNextKeyCS r
      (c :: p.1, p.2)

/-- The `where:(…)` depth scan of `splitTopLevel` (after the opening
paren, depth starts at 1): `\` skips two characters, quotes are skipped
raw (an unclosed one is `unclosedQuoteWhere`), and reaching the end with
positive depth is `unbalancedParens`.  Returns the consumed characters
(including the final closing paren) and the rest.  Fuelled: every step
consumes at least one character. -/
def whereBlockScan (fuel : Nat) (l : LC) (depth : Nat) : Except PErr (LC × LC) :=
  match fuel with
  | 0 => .error .fuelExhausted
  | fuel + 1 =>
    match l with
    | [] => .error .unbalancedParens
    | ['\\'] => .error .unbalancedParens
    | '\\' :: c :: r =>
      (whereBlockScan fuel r depth).map (fun p => ('\\' :: c :: p.1, p.2))
    | '"' :: r =>
      match rawQuoteScan r with
      | none => .error .unclosedQuoteWhere
      | some (q, rest) =>
        (whereBlockScan fuel rest depth).map (fun p => ('"' :: (q ++ p.1), p.2))
    | '(' :: r => (whereBlockScan fuel r (depth + 1)).map (fun p => ('(' :: p.1, p.2))
    | ')' :: r =>
      if depth = 1 then .ok ([')'], r)
      else (whereBlockScan fuel r (depth - 1)).map (fun p => (')' :: p.1, p.2))
    | c :: r => (whereBlockScan fuel r depth).map (fun p => (c :: p.1, p.2))

/-- Take the maximal run of non-whitespace characters (a "regular token"
of `splitTopLevel`). -/
def spanNonWs (l : LC) : LC × LC :=
  (l.takeWhile (fun c => !isWsChar c), l.dropWhile (fun c => !isWsChar c))

/-- The clause loop of `splitTopLevel`: skip whitespace, then a quoted
string, an `order:` clause (consumed up to the next recognised key), a
`where:(…)` block, a bare `where:` (whose remainder is consumed as a
regular token, as in the source), or a regular token.  One unit of fuel
per clause. -/
def splitTopLevelLoop (fuel : Nat) (l : LC) : Except PErr (List LC) :=
  match l.dropWhile isWsChar with
  | [] => .ok []
  | c :: rest =>
    match fuel with
    | 0 => .error .fuelExhausted
    | fuel + 1 =>
      if c = '"' then
        match rawQuoteScan rest with
        | none => .error .unclosedQuote
        | some (q, r) => (splitTopLevelLoop fuel r).map (('"' :: q) :: ·)
      else if (lc "order:").isPrefixOf (c :: rest) then
        -- parse.ts also advances `i` over whitespace before pushing, but then
        -- overwrites `i` with the match position, so the clause is the full
        -- slice from `order:` to the boundary.
        let p := splitAtNextKeyCS ((c :: rest).drop 6)
        (splitTopLevelLoop fuel p.2).map ((lc "order:" ++ p.1) :: ·)
      else if (lc "where:").isPrefixOf (c :: rest) ∧
              ((c :: rest).drop 6).head? = some '(' then do
        let p ← whereBlockScan ((c :: rest).length + 1) ((c :: rest).drop 7) 1
        (splitTopLevelLoop fuel p.2).map ((lc "where:(" ++ p.1) :: ·)
      else if (lc "where:").isPrefixOf (c :: rest) then
        -- `where:` not followed by `(`: the source advances past `where:` and
        -- then consumes a regular token from there (possibly empty).
        let p := spanNonWs ((c :: rest).drop 6)
        (splitTopLevelLoop fuel p.2).map (p.1 :: ·)
      else
        let p := spanNonWs (c :: rest)
        (splitTopLevelLoop fuel p.2).map (p.1 :: ·)

/-- `splitTopLevel`. -/
def splitTopLevel (str : LC) : Except PErr (List LC) :=
  splitTopLevelLoop (str.length + 1) str

/-! ## Clause interpretation and `parsePlainText` (`parse.ts`) -/

/-- One order term from its whitespace-separated tokens (`tokens[0]` is the
field; `tokens[1]`, when present, must be a direction; further tokens are
not inspected by the source). -/
def parseOrderTokens : List LC → Except PErr RQLOrderTerm
  | [] => .error .emptyOrderTerm
  | field :: restToks =>
    let fieldLower := lcToLower field
    if fieldLower = lc "asc" ∨ fieldLower = lc "desc" then
      .error (.orderFieldIsDir field)
    else
      match restToks with
      | [] => .ok ⟨field, .asc⟩
      | d :: _ =>
        let dl := lcToLower d
        if dl = lc "asc" then .ok ⟨field, .asc⟩
        else if dl = lc "desc" then .ok ⟨field, .desc⟩
        else .error (.invalidOrderDir d)

/-- One comma-separated part of an `order:` value: trim, reject empty,
tokenize on whitespace. -/
def parseOrderTermPart (part : LC) : Except PErr RQLOrderTerm :=
  let t := lcTrim part
  if t = [] then .error .emptyOrderTerm
  else parseOrderTokens (splitWsRuns t)

/-- `out.include[r] = true` on a JS object: a later duplicate keeps the
first key position. -/
def addIncludeKey (l : List LC) (r : LC) : List LC :=
  if r ∈ l then l else l ++ [r]

/-- Interpretation of one clause (the body of the `for` loop of
`parsePlainText`): split at the first `:`, lowercase the key, dispatch. -/
def applyClause (out : RQLQuery) (clause : LC) : Except PErr RQLQuery :=
  match lcIndexOf clause ':' with
  | none => .error (.invalidClause clause)
  | some colon =>
    let key := lcToLower (lcTrim (clause.take colon))
    let value := lcTrim (clause.drop (colon + 1))
    if key = lc "entity" then
      if out.entity.isSome then .error (.duplicateKey (lc "entity"))
      else if value = [] then .error (.emptyValue (lc "entity"))
      else .ok { out with entity := some value }
    else if key = lc "limit" then
      if out.limit.isSome then .error (.duplicateKey (lc "limit"))
      else if value = [] then .error (.emptyValue (lc "limit"))
      else
        match parseIntJs value with
        | none => .error .limitInvalid
        | some n =>
          if n < 0 then .error .limitNegative
          else if !(value ≠ [] ∧ value.all isDigitChar : Bool) then
            .error .limitDecimals
          else .ok { out with limit := some n }
    else if key = lc "order" then
      if out.order.isSome then .error (.duplicateKey (lc "order"))
      else if value = [] then .error (.emptyValue (lc "order"))
      else do
        let terms ← (splitOnChar ',' value).mapM parseOrderTermPart
        .ok { out with order := some terms }
    else if key = lc "include" then
      if out.include_.isSome then .error (.duplicateKey (lc "include"))
      else if value = [] then .error (.emptyValue (lc "include"))
      else do
        let rels ← (splitOnChar ',' value).foldlM
          (fun acc rel =>
            let r := lcTrim rel
            if r = [] then .error .emptyRelation
            else .ok (addIncludeKey acc r))
          []
        .ok { out with include_ := some rels }
    else if key = lc "where" then
      if out.where_.isSome then .error (.duplicateKey (lc "where"))
      else if value = [] then .error (.emptyValue (lc "where"))
      else do
        let inner ← unwrapWhere value
        let c ← parseWhere inner
        .ok { out with where_ := some c }
    else .error (.unknownKey key)

/-! ## `validateAgainstSchema` (`parse.ts`) -/

mutual

/-- `collectFields` of the validator: the fields of the `where` tree that
are not in the allowed set, in traversal order (with repetitions, as in
the source; the caller dedups). -/
def collectUnknownFields (allowed : List LC) : RQLCondition → List LC
  | .comparison f _ _ => if f ∈ allowed then [] else [f]
  | .and l => collectUnknownFieldsList allowed l
  | .or l => collectUnknownFieldsList allowed l

/-- `collectFields` over a child list. -/
def collectUnknownFieldsList (allowed : List LC) : List RQLCondition → List LC
  | [] => []
  | c :: r => collectUnknownFields allowed c ++ collectUnknownFieldsList allowed r

end

/-- `[...new Set(xs)]`, with the elements already emitted. -/
def dedupFirstGo : List LC → List LC → List LC
  | [], _ => []
  | x :: r, seen =>
    if x ∈ seen then dedupFirstGo r seen
    else x :: dedupFirstGo r (seen ++ [x])

/-- `[...new Set(xs)]`: first occurrences, in order. -/
def dedupFirst (l : List LC) : List LC := dedupFirstGo l []

/-- `validateAgainstSchema`: no-op on an empty entity list; otherwise check
the entity name, then (if an entity definition matches) each include
relation, then (if the entity has a field map) collect and report unknown
`where` fields. -/
def validateAgainstSchema (rql : RQLQuery) (schema : Schema) : Except PErr Unit :=
  if schema.entities = [] then .ok ()
  else
    let entityNames := schema.entities.map (·.name)
    do
    -- `if (rql.entity)`: present and non-empty
    (match rql.entity with
     | some e =>
       if e ≠ [] ∧ ¬(e ∈ entityNames) then .error (.unknownEntity e entityNames)
       else .ok ()
     | none => .ok ())
    let entityDef : Option EntityDef := match rql.entity with
      | none => none
      | some e => schema.entities.find? (fun d => d.name = e)
    match entityDef with
    | none => .ok ()
    | some d => do
      (match rql.include_ with
       | some incl =>
         if incl ≠ [] then
           let allowed := d.relations.getD []
           match incl.find? (fun r => ¬(r ∈ allowed)) with
           | some r => .error (.unknownRelation r (rql.entity.getD []) allowed)
           | none => .ok ()
         else .ok ()
       | none => .ok ())
      (match rql.where_, d.fields with
       | some w, some fdefs =>
         let allowedFields := fdefs.map (·.1)
         let unknown := dedupFirst (collectUnknownFields allowedFields w)
         if unknown ≠ [] then
           .error (.unknownFields unknown (rql.entity.getD []) allowedFields)
         else .ok ()
       | _, _ => .ok ())

/-! ## `parsePlainText` -/

/-- The syntactic phase of `parsePlainText` (before schema validation):
trim, return `{}` on an empty input, split into clauses, fold the clause
interpreter over them. -/
def parsePlainTextCore (input : LC) : Except PErr RQLQuery :=
  let trimmed := lcTrim input
  if trimmed = [] then .ok {}
  else do
    let clauses ← splitTopLevel trimmed
    clauses.foldlM applyClause {}

/-- `parsePlainText`: the syntactic phase, then `validateAgainstSchema`
when a schema is supplied.  (An empty input returns `{}` before
validation, as in the source.) -/
def parsePlainText (input : LC) (schema : Option Schema) : Except PErr RQLQuery :=
  match schema with
  | none => parsePlainTextCore input
  | some s => do
    let out ← parsePlainTextCore input
    validateAgainstSchema out s
    .ok out

/-- `isValidPlainText`. -/
def isValidPlainText (input : LC) (schema : Option Schema) : Bool :=
  (parsePlainText input schema).isOk

/-! ## Autocomplete (`autocomplete.ts`): contexts and suggestions -/

/-- `CursorContext` (the source field `partial` is rendered `partialStr`;
the optional `afterField` of `order-value` is a `Bool`, absent = `false`). -/
inductive CursorContext
  | topLevel (partialStr : LC) (usedKeys : List LC)
  | entityValue (partialStr : LC)
  | limitValue (partialStr : LC)
  | orderValue (partialStr : LC) (entityVal : LC) (afterField : Bool)
  | includeValue (partialStr : LC) (entityVal : LC)
  | whereField (partialStr : LC) (entityVal : LC)
  | whereValue (partialStr : LC) (field : LC) (op : LC) (entityVal : LC)
  | unknown (partialStr : LC)
deriving DecidableEq, Repr

/-- `context.partial`. -/
def CursorContext.partialStr : CursorContext → LC
  | .topLevel p _ => p
  | .entityValue p => p
  | .limitValue p => p
  | .orderValue p _ _ => p
  | .includeValue p _ => p
  | .whereField p _ => p
  | .whereValue p _ _ _ => p
  | .unknown p => p

/-- `Suggestion` (`replacePartial` defaults to `true` in the source: only
`=== false` is ever tested). -/
structure Suggestion where
  label : LC
  insertText : LC
  replacePartial : Bool := true
  replaceLength : Nat := 0
deriving DecidableEq, Repr

/-- A suggestion before `withReplace` fills in `replaceLength`. -/
def mkSuggestion (label insertText : LC) : Suggestion :=
  { label := label, insertText := insertText }

/-- `withReplace`: `replaceLength := 0` when `replacePartial === false`,
else the partial's length. -/
def withReplace (replaceLen : Nat) (s : Suggestion) : Suggestion :=
  if s.replacePartial = false then { s with replaceLength := 0 }
  else { s with replaceLength := replaceLen }

/-- `TOP_LEVEL_KEYS`. -/
def TOP_LEVEL_KEYS : List LC :=
  [lc "entity:", lc "limit:", lc "order:", lc "include:", lc "where:("]

/-- `WHERE_OPS` (same list as the parser's `OPS`). -/
def WHERE_OPS : List LC :=
  [lc "!=", lc "<=", lc ">=", lc "=", lc "<", lc ">"]

/-- JS `s.replace(x, "")` for a one-character pattern: remove the first
occurrence. -/
def removeFirstChar (l : LC) (c : Char) : LC :=
  match l with
  | [] => []
  | x :: r => if x = c then r else x :: removeFirstChar r c

/-- `findRelevantEntities`: all entities when the entity value is empty,
else those whose lowercased name equals or starts with it. -/
def findRelevantEntities (schema : Schema) (entityVal : LC) : List EntityDef :=
  if entityVal = [] then schema.entities
  else
    let lowerEV := lcToLower entityVal
    schema.entities.filter
      (fun e => lcToLower e.name = lowerEV || lcStartsWith (lcToLower e.name) lowerEV)

/-- JS `Set.add` / setting a fresh object key: append unless present
(insertion order, first occurrence kept). -/
def addUnique (l : List LC) (x : LC) : List LC :=
  if x ∈ l then l else l ++ [x]

/-- JS `Map.set`: replace the value in place if the key exists, else
append. -/
def setAssoc (m : List (LC × FieldDef)) (k : LC) (v : FieldDef) :
    List (LC × FieldDef) :=
  if m.any (fun p => p.1 = k) then m.map (fun p => if p.1 = k then (k, v) else p)
  else m ++ [(k, v)]

/-- The `fieldMap` built by the `order-value`/`where-field` cases: every
matching field of every relevant entity, in iteration order. -/
def buildFieldMap (matchesP : LC → Bool) (ents : List EntityDef) :
    List (LC × FieldDef) :=
  ents.foldl
    (fun m e =>
      (e.fields.getD []).foldl
        (fun m p => if matchesP p.1 then setAssoc m p.1 p.2 else m) m)
    []

/-- The relation `Set` of the `include-value` case. -/
def buildRelationSet (matchesP : LC → Bool) (ents : List EntityDef) : List LC :=
  ents.foldl
    (fun acc e =>
      (e.relations.getD []).foldl
        (fun acc r => if matchesP r then addUnique acc r else acc) acc)
    []

/-- The value `Set` of the `where-value` case (`entity.fields?.[field]`,
then its declared `values`). -/
def buildValueSet (matchesP : LC → Bool) (ents : List EntityDef) (field : LC) :
    List LC :=
  ents.foldl
    (fun acc e =>
      match (e.fields.getD []).find? (fun p => p.1 = field) with
      | some fd =>
        match fd.2.values with
        | some vs => vs.foldl (fun acc v => if matchesP v then addUnique acc v else acc) acc
        | none => acc
      | none => acc)
    []

/-- `getSuggestions`. -/
def getSuggestions (ctx : CursorContext) (schema : Schema) : List Suggestion :=
  let partialLower := lcToLower ctx.partialStr
  let replaceLen := ctx.partialStr.length
  let matchesPartial : LC → Bool := fun name =>
    partialLower.isEmpty || lcStartsWith (lcToLower name) partialLower
  match ctx with
  | .topLevel _ usedKeys =>
    (TOP_LEVEL_KEYS.filter (fun k =>
      let keyName := removeFirstChar (removeFirstChar k ':') '('
      !(decide (keyName ∈ usedKeys)) && matchesPartial keyName)).map
      (fun k => withReplace replaceLen (mkSuggestion k k))
  | .entityValue _ =>
    ((schema.entities.filter (fun e => matchesPartial e.name)).map
      (fun e => withReplace replaceLen (mkSuggestion e.name e.name)))
  | .limitValue _ =>
    -- "Could suggest common limits: 10, 25, 50, 100"
    []
  | .orderValue _ entityVal afterField =>
    let relevant := findRelevantEntities schema entityVal
    let fieldMap := buildFieldMap matchesPartial relevant
    let base := (fieldMap.map Prod.fst).map
      (fun f => withReplace replaceLen (mkSuggestion f f))
    if afterField then
      base ++ (([lc "asc", lc "desc"].filter matchesPartial).map
        (fun d => withReplace replaceLen (mkSuggestion d d)))
    else base
  | .includeValue _ entityVal =>
    (buildRelationSet matchesPartial (findRelevantEntities schema entityVal)).map
      (fun r => withReplace replaceLen (mkSuggestion r r))
  | .whereField p entityVal =>
    let relevant := findRelevantEntities schema entityVal
    let fieldMap := buildFieldMap matchesPartial relevant
    let exactFieldMatch := !p.isEmpty && fieldMap.any (fun q => q.1 = p)
    if exactFieldMatch then
      -- exact field name typed: suggest only the operators, inserted
      -- without replacing the partial
      WHERE_OPS.map (fun o =>
        withReplace replaceLen
          { label := o, insertText := o, replacePartial := false })
    else
      (fieldMap.map Prod.fst).map
        (fun f => withReplace replaceLen (mkSuggestion f f))
  | .whereValue _ field _ entityVal =>
    (buildValueSet matchesPartial (findRelevantEntities schema entityVal) field).map
      (fun v => withReplace replaceLen (mkSuggestion v v))
  | .unknown _ => []

/-! ## Autocomplete: cursor context (`getContext` and its helpers)

The index-walking helpers keep the source's byte indices.  Each loop takes
a step budget; every helper except `tokenizeWhereInner`'s loop advances its
index every step, so the length-derived budgets used in `getContext` cover
those loops.  `tokenizeWhereInner` does *not* always advance (its unquoted
word branch pushes nothing and leaves the index unchanged when the word is
empty, e.g. on a stray `!`), so its budget is `getContext`'s explicit
`fuel` parameter and exhaustion surfaces as `none`. -/

/-- JS `s[i]`. -/
def charAt (l : LC) (i : Nat) : Option Char := (l.drop i).head?

/-- Index of the first non-whitespace character at or after `i` (the
`while (… && /\s/.test(s[i]))) i++` loops). -/
def skipWsIdx (l : LC) (i : Nat) : Nat :=
  i + ((l.drop i).takeWhile isWsChar).length

/-- Is the character at index `k` whitespace (`/\\s/.test(s[k])`, false
past the end)? -/
def isWsAt (s : LC) (k : Nat) : Bool :=
  match charAt s k with
  | some c => isWsChar c
  | none => false

/-- `/\\s$/.test(s)`: does the string end in whitespace? -/
def lastIsWs (l : LC) : Bool :=
  match l.getLast? with
  | some c => isWsChar c
  | none => false

/-- `skipQuotedString` (autocomplete): from the opening quote, skip to just
past the closing quote (escapes skip two characters); stops at end of
string when unclosed.  The budget covers any run (the index advances every
step). -/
def skipQSLoop (fuel : Nat) (s : LC) (i : Nat) : Nat :=
  match fuel with
  | 0 => i
  | fuel + 1 =>
    if i < s.length then
      match charAt s i with
      | some '\\' => skipQSLoop fuel s (i + 2)
      | some '"' => i + 1
      | _ => skipQSLoop fuel s (i + 1)
    else i

/-- `skipQuotedString`. -/
def skipQuotedString (s : LC) (startIndex : Nat) : Nat :=
  skipQSLoop (s.length + 2) s (startIndex + 1)

/-- The depth walk of `skipWhereBlock` (after the opening paren). -/
def skipWBLoop (fuel : Nat) (s : LC) (i depth : Nat) : Nat :=
  match fuel with
  | 0 => i
  | fuel + 1 =>
    if i < s.length ∧ 0 < depth then
      match charAt s i with
      | some '\\' => skipWBLoop fuel s (i + 2) depth
      | some '"' => skipWBLoop fuel s (skipQuotedString s i) depth
      | some '(' => skipWBLoop fuel s (i + 1) (depth + 1)
      | some ')' => skipWBLoop fuel s (i + 1) (depth - 1)
      | _ => skipWBLoop fuel s (i + 1) depth
    else i

/-- `skipWhereBlock`: past `where:`; if no `(` follows, that index;
otherwise walk the parens (skipping quotes) to just past the matching
close, or end of string. -/
def skipWhereBlock (s : LC) (startIndex : Nat) : Nat :=
  if charAt s (startIndex + 6) = some '(' then
    skipWBLoop (s.length + 2) s (startIndex + 7) 1
  else startIndex + 6

/-- Case-insensitive version of the recognised-key test (the autocomplete
regexes carry the `i` flag, unlike the parser's). -/
def startsWithRecognisedKeyCI (l : LC) : Bool :=
  startsWithRecognisedKey (lcToLower l)

/-- `findNextKeyStart`: the first index `k ≥ fromIndex` where a whitespace
character is directly followed (case-insensitively) by a recognised key and
a colon; `s.length` when there is none. -/
def findNKLoop (fuel : Nat) (s : LC) (k : Nat) : Nat :=
  match fuel with
  | 0 => s.length
  | fuel + 1 =>
    if k < s.length then
      if isWsAt s k ∧ startsWithRecognisedKeyCI (s.drop (k + 1)) then k
      else findNKLoop fuel s (k + 1)
    else s.length

/-- `findNextKeyStart`. -/
def findNextKeyStart (s : LC) (fromIndex : Nat) : Nat :=
  findNKLoop (s.length + 1) s fromIndex

/-- `getEntityValueFromQuery`: the first `entity:` match (case-sensitive),
its maximal non-whitespace tail, trimmed; `""` when absent. -/
def gevLoop (fuel : Nat) (q : LC) (k : Nat) : LC :=
  match fuel with
  | 0 => []
  | fuel + 1 =>
    if k < q.length then
      if (lc "entity:").isPrefixOf (q.drop k) then
        lcTrim ((q.drop (k + 7)).takeWhile (fun c => !isWsChar c))
      else gevLoop fuel q (k + 1)
    else []

/-- `getEntityValueFromQuery`. -/
def getEntityValueFromQuery (q : LC) : LC := gevLoop (q.length + 1) q 0

/-- The scan loop of `getTopLevelKeysUsed`. -/
def keysLoop (fuel : Nat) (q : LC) (i : Nat) (keys : List LC) : List LC :=
  match fuel with
  | 0 => keys
  | fuel + 1 =>
    if i < q.length then
      let j := skipWsIdx q i
      if j ≥ q.length then keys
      else if charAt q j = some '"' then
        keysLoop fuel q (skipQuotedString q j) keys
      else if (q.drop j).take 6 = lc "where:" then
        keysLoop fuel q (skipWhereBlock q j) (addUnique keys (lc "where"))
      else if lcToLower ((q.drop j).take 6) = lc "order:" then
        keysLoop fuel q (findNextKeyStart q (j + 6)) (addUnique keys (lc "order"))
      else
        let segment := (q.drop j).takeWhile (fun c => !isWsChar c)
        let keys' := match lcIndexOf segment ':' with
          | some ci =>
            let key := lcToLower (lcTrim (segment.take ci))
            if key = lc "entity" ∨ key = lc "limit" ∨ key = lc "include" then
              addUnique keys key
            else keys
          | none => keys
        keysLoop fuel q (j + segment.length) keys'
    else keys

/-- `getTopLevelKeysUsed`. -/
def getTopLevelKeysUsed (q : LC) : List LC := keysLoop (q.length + 2) q 0 []

/-- `SegmentResult`. -/
structure SegmentResult where
  segment : LC
  startIndex : Nat
deriving DecidableEq, Repr

/-- The fallthrough after `getSegmentAtCursor`'s loop: an empty segment at
end-of-query after trailing whitespace, else the suffix from the last
clause start. -/
def segAfterLoop (before : LC) (qlen cursor lastClauseStart : Nat) : SegmentResult :=
  if cursor = qlen ∧ 0 < before.length ∧ lastIsWs before then
    ⟨[], before.length⟩
  else ⟨before.drop lastClauseStart, lastClauseStart⟩

/-- `/^(entity|limit|include):/i`: the matched length and lowercased key. -/
def keyMatchELI (l : LC) : Option (Nat × LC) :=
  if (lc "entity:").isPrefixOf (lcToLower l) then some (7, lc "entity")
  else if (lc "limit:").isPrefixOf (lcToLower l) then some (6, lc "limit")
  else if (lc "include:").isPrefixOf (lcToLower l) then some (8, lc "include")
  else none

/-- `/^(entity|limit|order|include):/i` (the include-value boundary
test). -/
def isELOIPrefix (l : LC) : Bool :=
  ([lc "entity:", lc "limit:", lc "order:", lc "include:"]).any
    (fun k => k.isPrefixOf (lcToLower l))

/-- The inner skip of an `include:` value (runs to the next clause
boundary, skipping quoted strings). -/
def includeSkipLoop (fuel : Nat) (before : LC) (i : Nat) : Nat :=
  match fuel with
  | 0 => i
  | fuel + 1 =>
    if i < before.length then
      let j := skipWsIdx before i
      if j ≥ before.length then j
      else if (before.drop j).take 6 = lc "where:" ∧ charAt before (j + 6) = some '(' then j
      else if isELOIPrefix (before.drop j) then j
      else if charAt before j = some '"' then
        includeSkipLoop fuel before (skipQuotedString before j)
      else includeSkipLoop fuel before (j + 1)
    else i

/-- The clause walk of `getSegmentAtCursor`.  `before` is
`query.slice(0, cursor)`, `qlen` the full query's length. -/
def segLoop (fuel : Nat) (before : LC) (qlen cursor : Nat)
    (i lastClauseStart : Nat) : Option SegmentResult :=
  match fuel with
  | 0 => none
  | fuel + 1 =>
    let len := before.length
    if i < len then
      let j := skipWsIdx before i
      if j ≥ len then segAfterLoop before qlen cursor lastClauseStart
      else if charAt before j = some '"' then
        segLoop fuel before qlen cursor (skipQuotedString before j) lastClauseStart
      else if (before.drop j).take 6 = lc "where:" ∧ charAt before (j + 6) = some '(' then
        let endOfBlock := skipWhereBlock before j
        if cursor ≤ endOfBlock then some ⟨before.drop j, j⟩
        else some ⟨before.drop endOfBlock, endOfBlock⟩
      else if lcToLower ((before.drop j).take 6) = lc "order:" then
        let segmentEnd := findNextKeyStart before (j + 6)
        if cursor < segmentEnd then some ⟨before.drop j, j⟩
        else if segmentEnd < len then
          segLoop fuel before qlen cursor segmentEnd segmentEnd
        else if cursor = qlen ∧ lastIsWs before ∧
            lcTrim ((before.drop (j + 6)).take (segmentEnd - (j + 6))) = [] then
          segLoop fuel before qlen cursor len len
        else some ⟨before.drop j, j⟩
      else
        match keyMatchELI (before.drop j) with
        | some km =>
          let i2 := j + km.1
          if km.2 = lc "include" then
            segLoop fuel before qlen cursor
              (includeSkipLoop (before.length + 2) before i2) j
          else
            segLoop fuel before qlen cursor
              (i2 + ((before.drop i2).takeWhile (fun c => !isWsChar c)).length) j
        | none =>
          segLoop fuel before qlen cursor
            (j + ((before.drop j).takeWhile (fun c => !isWsChar c)).length) j
    else segAfterLoop before qlen cursor lastClauseStart

/-- `getSegmentAtCursor`. -/
def getSegmentAtCursor (query : LC) (cursor : Nat) : Option SegmentResult :=
  segLoop (query.length + 2) (query.take cursor) query.length cursor 0 0

/-! ## Autocomplete: the where-inner tokenizer and `parseWhereInner` -/

/-- `Token` of `autocomplete.ts` (`paren | keyword | op | value | word`;
`value` is a quoted string, unescaped). -/
inductive ACTok
  | paren (v : Char)
  | keyword (v : LC)
  | op (v : LC)
  | value (v : LC)
  | word (v : LC)
deriving DecidableEq, Repr

/-- `token.value` (uniform accessor, as in the source's untyped reads). -/
def ACTok.val : ACTok → LC
  | .paren c => [c]
  | .keyword v => v
  | .op v => v
  | .value v => v
  | .word v => v

/-- The tolerant quoted-string scanner of `tokenizeWhereInner` (after the
opening quote): unescapes, and at end-of-string simply stops (an unclosed
quote still yields a token). -/
def quoteScanTolerant : LC → LC × LC
  | [] => ([], [])
  | '"' :: r => ([], r)
  | ['\\'] => ([], [])
  | '\\' :: c :: r =>
    let p := quoteScanTolerant r
    (c :: p.1, p.2)
  | c :: r =>
    let p := quoteScanTolerant r
    (c :: p.1, p.2)

/-- Is the boundary after a positional keyword ok (end of string, or a
non-word character)? -/
def kwBoundary : LC → Bool
  | [] => true
  | d :: _ => isWordBreak d

/-- The positional `or` keyword test: two characters matching `or`
case-insensitively, not followed by a word character. -/
def acKeyword2 : LC → Option (LC × LC)
  | c1 :: c2 :: r =>
    if lcToLower [c1, c2] = lc "or" ∧ kwBoundary r then some ([c1, c2], r)
    else none
  | _ => none

/-- The positional `and` keyword test (three characters). -/
def acKeyword3 : LC → Option (LC × LC)
  | c1 :: c2 :: c3 :: r =>
    if lcToLower [c1, c2, c3] = lc "and" ∧ kwBoundary r then
      some ([c1, c2, c3], r)
    else none
  | _ => none

/-- Is the raw word `and` or `or` (case-insensitive)?  (The fallback
keyword test on an unquoted word.) -/
def isAndOrWord (w : LC) : Bool :=
  lcToLower w = lc "and" || lcToLower w = lc "or"

/-- The scanning loop of `tokenizeWhereInner`.  Unlike the parser's
tokenizer, the empty-word case pushes nothing and does not advance — the
loop then repeats the very same state, so on such inputs no budget
suffices (`none` for every `fuel`). -/
def acTokLoop (fuel : Nat) (l : LC) : Option (List ACTok) :=
  match l.dropWhile isWsChar with
  | [] => some []
  | c :: rest =>
    match fuel with
    | 0 => none
    | fuel + 1 =>
      if c = '(' || c = ')' then (acTokLoop fuel rest).map (.paren c :: ·)
      else
        match acKeyword2 (c :: rest) with
        | some p => (acTokLoop fuel p.2).map (.keyword p.1 :: ·)
        | none =>
          match acKeyword3 (c :: rest) with
          | some p => (acTokLoop fuel p.2).map (.keyword p.1 :: ·)
          | none =>
            match opPrefix (c :: rest) with
            | some p => (acTokLoop fuel p.2).map (.op p.1 :: ·)
            | none =>
              if c = '"' then
                let p := quoteScanTolerant rest
                (acTokLoop fuel p.2).map (.value p.1 :: ·)
              else
                let p := takeWord (c :: rest)
                if p.1 = [] then acTokLoop fuel (c :: rest)
                else
                  let t := if isAndOrWord p.1 then ACTok.keyword p.1 else ACTok.word p.1
                  (acTokLoop fuel p.2).map (t :: ·)

/-- `tokenizeWhereInner` (budget explicit: see `acTokLoop`). -/
def tokenizeWhereInner (fuel : Nat) (s : LC) : Option (List ACTok) :=
  acTokLoop fuel s

/-- JS `s.trimEnd()`. -/
def lcTrimEnd (l : LC) : LC := (l.reverse.dropWhile isWsChar).reverse

/-- `WhereParseResult` (`kind: "field" | "value"`; `field`/`op` optional). -/
inductive WhereParseResult
  | field (partialStr : LC)
  | value (partialStr : LC) (field : Option LC) (op : Option LC)
deriving DecidableEq, Repr

/-- `parseWhereInner`: classify the cursor position inside a `where`
value from the last tokens. -/
def parseWhereInner (fuel : Nat) (inner : LC) : Option WhereParseResult :=
  let trimmed := lcTrimEnd inner
  if trimmed = [] then some (.field [])
  else
    (tokenizeWhereInner fuel trimmed).map fun tokens =>
      match tokens.reverse with
      | [] => .field []
      | last :: revRest =>
        let prev? := revRest.head?
        let prevPrev? := revRest.tail.head?
        match last with
        | .word w =>
          match prev? with
          | some (.op o) => .value w (prevPrev?.map ACTok.val) (some o)
          | _ => .field w
        | .op o => .value [] (prev?.map ACTok.val) (some o)
        | .value v => .value v (prevPrev?.map ACTok.val) (prev?.map ACTok.val)
        | _ => .field []

/-- JS `s.lastIndexOf(c)`. -/
def lcLastIndexOf (l : LC) (c : Char) : Option Nat :=
  (l.reverse.findIdx? (· = c)).map (fun ri => l.length - 1 - ri)

/-- `getContext`.  The `fuel` parameter is the budget of the where-inner
tokenizer only (see `acTokLoop`); every other loop's budget is derived
from the input length, which covers it. -/
def getContext (fuel : Nat) (query : LC) (cursor : Int) : Option CursorContext :=
  let safeCursor : Nat := (max 0 (min cursor (query.length : Int))).toNat
  let entityVal := getEntityValueFromQuery query
  let usedKeys := getTopLevelKeysUsed query
  (getSegmentAtCursor query safeCursor).bind fun seg =>
    let segment := seg.segment
    if segment = [] then some (.topLevel [] usedKeys)
    else
      match lcIndexOf segment ':' with
      | none =>
        let trimmedSegment := lcToLower (lcTrim segment)
        let justTypedColon :=
          0 < safeCursor ∧ charAt query (safeCursor - 1) = some ':'
        if justTypedColon ∧ trimmedSegment = lc "entity" then
          some (.entityValue [])
        else if justTypedColon ∧ trimmedSegment = lc "limit" then
          some (.limitValue [])
        else if justTypedColon ∧ trimmedSegment = lc "order" then
          some (.orderValue [] entityVal false)
        else if justTypedColon ∧ trimmedSegment = lc "include" then
          some (.includeValue [] entityVal)
        else if trimmedSegment = lc "where" ∧ 0 < safeCursor ∧
            charAt query (safeCursor - 1) = some '(' then
          some (.whereField [] entityVal)
        else some (.topLevel (lcTrim segment) usedKeys)
      | some colonIndex =>
        let key := lcToLower (lcTrim (segment.take colonIndex))
        let value := segment.drop (colonIndex + 1)
        if key = lc "entity" then some (.entityValue value)
        else if key = lc "limit" then some (.limitValue (lcTrim value))
        else if key = lc "order" then
          let afterLastComma :=
            match lcLastIndexOf value ',' with
            | some li => value.drop (li + 1)
            | none => value
          let partialV :=
            if afterLastComma.getLast? = some ' ' ∨ lcTrim afterLastComma = [] then []
            else
              let trimmedE := lcTrimEnd afterLastComma
              match lcLastIndexOf trimmedE ' ' with
              | none => trimmedE
              | some ls => trimmedE.drop (ls + 1)
          let afterField :=
            0 < (lcTrimEnd afterLastComma).length ∧ afterLastComma.getLast? = some ' '
          some (.orderValue partialV entityVal afterField)
        else if key = lc "include" then
          let afterLastComma :=
            match lcLastIndexOf value ',' with
            | some li => lcTrim (value.drop (li + 1))
            | none => lcTrim value
          some (.includeValue afterLastComma entityVal)
        else if key = lc "where" then
          let vt := lcTrim value
          let inner0 := if vt.head? = some '(' then vt.drop 1 else vt
          let inner :=
            if inner0.getLast? = some ')' then
              let balance := inner0.foldl
                (fun (b : Int) c => if c = '(' then b + 1 else if c = ')' then b - 1 else b) 0
              if balance = -1 then lcTrim inner0.dropLast else inner0
            else inner0
          (parseWhereInner fuel inner).map fun parsed =>
            match parsed with
            | .field p => .whereField p entityVal
            | .value p f o => .whereValue p (f.getD []) (o.getD (lc "=")) entityVal
        else some (.unknown segment)

/-- `getSuggestionsAtCursor` (cf. `getContext` for the budget). -/
def getSuggestionsAtCursor (fuel : Nat) (query : LC) (cursor : Int)
    (schema : Schema) : Option (List Suggestion) :=
  (getContext fuel query cursor).map (getSuggestions · schema)

/-! ## The logical-node flattening invariant (C6) -/

/-- Is the node an `And`? -/
def isAndNode : RQLCondition → Bool
  | .and _ => true
  | _ => false

/-- Is the node an `Or`? -/
def isOrNode : RQLCondition → Bool
  | .or _ => true
  | _ => false

mutual

/-- The flattening invariant: every `And`/`Or` node has at least two
children, no `And` has an `And` child, no `Or` has an `Or` child. -/
def wfCond : RQLCondition → Bool
  | .comparison _ _ _ => true
  | .and l => decide (2 ≤ l.length) && wfAndChildren l
  | .or l => decide (2 ≤ l.length) && wfOrChildren l

/-- Children of an `And`: no `And`, all well-formed. -/
def wfAndChildren : List RQLCondition → Bool
  | [] => true
  | c :: rest => !isAndNode c && wfCond c && wfAndChildren rest

/-- Children of an `Or`: no `Or`, all well-formed. -/
def wfOrChildren : List RQLCondition → Bool
  | [] => true
  | c :: rest => !isOrNode c && wfCond c && wfOrChildren rest

end

/-! # Theorems -/

/-- C5.  In the where-expression grammar `AND` binds tighter than `OR`:
`a=1 OR b=2 AND c=3` parses as
`Or[ Comparison(a,=,1), And[ Comparison(b,=,2), Comparison(c,=,3) ] ]`. -/
theorem where_and_binds_tighter_than_or :
    parseWhere (lc "a=1 OR b=2 AND c=3") =
      .ok (.or [.comparison (lc "a") (lc "=") (.num (lc "1")),
                .and [.comparison (lc "b") (lc "=") (.num (lc "2")),
                      .comparison (lc "c") (lc "=") (.num (lc "3"))]]) := by
  rfl

/-- C2, counterexample.  An order term with three whitespace-separated
tokens (`order:name asc extra`) does NOT raise a `ParseError`: the parse
succeeds and the extra token is ignored. -/
theorem order_extra_tokens_parse_ok :
    parsePlainText (lc "entity:users order:name asc extra") none =
      .ok { entity := some (lc "users"), order := some [⟨lc "name", .asc⟩] } := by
  rfl

/-- C2, amended.  For an order term whose first token is not a direction
and whose second token is a valid direction, any further tokens are
ignored: the term parses to the field with that direction, for every list
of extra tokens. -/
theorem order_extra_tokens_ignored :
    (∀ f d rest, lcToLower f ≠ lc "asc" → lcToLower f ≠ lc "desc" →
      lcToLower d = lc "asc" →
      parseOrderTokens (f :: d :: rest) = .ok ⟨f, .asc⟩) ∧
    (∀ f d rest, lcToLower f ≠ lc "asc" → lcToLower f ≠ lc "desc" →
      lcToLower d = lc "desc" →
      parseOrderTokens (f :: d :: rest) = .ok ⟨f, .desc⟩) := by
  constructor
  · intro f d rest h1 h2 h3
    simp [parseOrderTokens, h1, h2, h3]
  · intro f d rest h1 h2 h3
    have hne : lcToLower d ≠ lc "asc" := by rw [h3]; decide
    have hlit : ¬(lc "desc" = lc "asc") := by decide
    simp [parseOrderTokens, h1, h2, h3, hne, hlit]

/-- C2, witness for `order_extra_tokens_ignored` at
`["name", "asc", "extra"]`. -/
theorem order_extra_tokens_ignored_witness :
    parseOrderTokens [lc "name", lc "asc", lc "extra"] = .ok ⟨lc "name", .asc⟩ :=
  order_extra_tokens_ignored.1 (lc "name") (lc "asc") [lc "extra"]
    (by decide) (by decide) (by decide)

/-- C3, counterexample.  The order-clause boundary regex of
`splitTopLevel` has no `i` flag, so `LIMIT:5` is NOT a clause boundary:
`order:name LIMIT:5` swallows `LIMIT:5` into the order value and the parse
fails with `Invalid order direction "LIMIT:5"` instead of parsing as order
plus limit. -/
theorem order_uppercase_key_not_split :
    parsePlainText (lc "order:name LIMIT:5") none =
      .error (.invalidOrderDir (lc "LIMIT:5")) := by
  rfl

/-- C3, amended.  The splitter ends an order clause only at a *lowercase*
key: `order:name limit:5` splits and parses as order plus limit, while
`order:name LIMIT:5` raises a `ParseError`.  Top-level clause keys
themselves (before the colon) are matched case-insensitively, e.g.
`LIMIT:5` alone parses. -/
theorem order_splitter_case_sensitivity :
    parsePlainText (lc "order:name limit:5") none =
      .ok { limit := some 5, order := some [⟨lc "name", .asc⟩] } ∧
    parsePlainText (lc "order:name LIMIT:5") none =
      .error (.invalidOrderDir (lc "LIMIT:5")) ∧
    parsePlainText (lc "LIMIT:5") none = .ok { limit := some 5 } := by
  refine ⟨by rfl, by rfl, by rfl⟩


/-- C9.  Quoted values are always string-typed (whatever their contents),
and an unquoted word of numeric/boolean shape is typed number/boolean:
(1) `entity:items where:(id="18")` yields the *string* "18";
(2) a string token as comparison value always becomes a string value;
(3) a word of numeric shape (that is not a keyword or boolean word)
    becomes a number token;
(4)/(5) `true`/`false` (case-insensitive) become boolean tokens. -/
theorem typed_values_quoted_vs_unquoted :
    parsePlainText (lc "entity:items where:(id=\"18\")") none =
      .ok { entity := some (lc "items"),
            where_ := some (.comparison (lc "id") (lc "=") (.str (lc "18"))) } ∧
    (∀ f opv v rest, parseComparisonF (.ident f f :: .op opv :: .string v :: rest) =
        .ok (some (.comparison f opv (.str v)), rest)) ∧
    (∀ raw, lcToLower raw ≠ lc "and" → lcToLower raw ≠ lc "or" →
      lcToLower raw ≠ lc "true" → lcToLower raw ≠ lc "false" →
      isNumericForm raw = true → classifyWord raw = .number raw) ∧
    (∀ raw, lcToLower raw = lc "true" → classifyWord raw = .boolean true) ∧
    (∀ raw, lcToLower raw = lc "false" → classifyWord raw = .boolean false) := by
  refine ⟨by rfl, fun f opv v rest => rfl, ?_, ?_, ?_⟩
  · intro raw h1 h2 h3 h4 h5
    simp [classifyWord, h1, h2, h3, h4, h5]
  · intro raw h
    simp [classifyWord, h]
    all_goals decide
  · intro raw h
    simp [classifyWord, h]
    all_goals decide

/-- C9, witness: the string token `"18"` yields a string-valued
comparison; `18` is a number token; `TRUE` is a boolean token. -/
theorem typed_values_quoted_vs_unquoted_witness :
    parseComparisonF [.ident (lc "id") (lc "id"), .op (lc "="), .string (lc "18")] =
      .ok (some (.comparison (lc "id") (lc "=") (.str (lc "18"))), []) ∧
    classifyWord (lc "18") = .number (lc "18") ∧
    classifyWord (lc "TRUE") = .boolean true :=
  ⟨typed_values_quoted_vs_unquoted.2.1 (lc "id") (lc "=") (lc "18") [],
   typed_values_quoted_vs_unquoted.2.2.1 (lc "18") (by decide) (by decide)
     (by decide) (by decide) (by decide),
   typed_values_quoted_vs_unquoted.2.2.2.1 (lc "TRUE") (by decide)⟩

/-- C7.  Schema validation never rejects a query because of its order
clause: `validateAgainstSchema` gives the same verdict whatever the
`order` field holds, and whenever the syntactic parse and validation
succeed, the schema-checked parse returns that query. -/
theorem validator_ignores_order :
    (∀ (q : RQLQuery) (s : Schema) (o : Option (List RQLOrderTerm)),
      validateAgainstSchema { q with order := o } s = validateAgainstSchema q s) ∧
    (∀ (input : LC) (s : Schema) (q : RQLQuery),
      parsePlainTextCore input = .ok q →
      validateAgainstSchema q s = .ok () →
      parsePlainText input (some s) = .ok q) := by
  constructor
  · intro q s o
    rfl
  · intro input s q h1 h2
    unfold parsePlainText
    rw [h1]
    show (validateAgainstSchema q s) >>= (fun _ => Except.ok q) = Except.ok q
    rw [h2]
    rfl

/-- C7, witness: an `order` field entirely unknown to the schema passes
validation and the schema-checked parse succeeds. -/
theorem validator_ignores_order_witness :
    validateAgainstSchema
        { entity := some (lc "users"), order := some [⟨lc "zzz", .asc⟩] }
        exampleSchema =
      validateAgainstSchema { entity := some (lc "users") } exampleSchema ∧
    parsePlainText (lc "entity:users order:zzz") (some exampleSchema) =
      .ok { entity := some (lc "users"), order := some [⟨lc "zzz", .asc⟩] } :=
  ⟨validator_ignores_order.1 { entity := some (lc "users") } exampleSchema
      (some [⟨lc "zzz", .asc⟩]),
   validator_ignores_order.2 (lc "entity:users order:zzz") exampleSchema
      { entity := some (lc "users"), order := some [⟨lc "zzz", .asc⟩] }
      (by rfl) (by rfl)⟩

/-- C10.  Validation is vacuous unless an entity resolves:
(1) an empty entity list validates any query;
(2) a query with no `entity` field validates against any schema, whatever
    its include relations and where fields;
(3) when the matched entity defines no field map, the `where` tree is not
    inspected: validation gives the same verdict for any `where`. -/
theorem validation_vacuous_cases :
    (∀ (q : RQLQuery), validateAgainstSchema q (Schema.mk []) = .ok ()) ∧
    (∀ (q : RQLQuery) (s : Schema), q.entity = none →
      validateAgainstSchema q s = .ok ()) ∧
    (∀ (q : RQLQuery) (s : Schema) (e : LC) (d : EntityDef) (w : RQLCondition),
      q.entity = some e →
      s.entities.find? (fun dd => dd.name = e) = some d →
      d.fields = none →
      validateAgainstSchema { q with where_ := some w } s =
        validateAgainstSchema { q with where_ := none } s) := by
  refine ⟨?_, ?_, ?_⟩
  · intro q
    simp [validateAgainstSchema]
  · intro q s h
    unfold validateAgainstSchema
    simp [h]
    intro _
    rfl
  · intro q s e d w h1 h2 h3
    simp [validateAgainstSchema, h1, h2, h3]

/-- C10, witness: concrete instances of the three vacuous cases. -/
theorem validation_vacuous_cases_witness :
    validateAgainstSchema
        { entity := some (lc "zzz"), include_ := some [lc "x"],
          where_ := some (.comparison (lc "a") (lc "=") (.bool true)) }
        (Schema.mk []) = .ok () ∧
    validateAgainstSchema
        { include_ := some [lc "x"],
          where_ := some (.comparison (lc "a") (lc "=") (.bool true)) }
        exampleSchema = .ok () ∧
    validateAgainstSchema
        { entity := some (lc "e"),
          where_ := some (.comparison (lc "zz") (lc "=") (.num (lc "1"))) }
        (Schema.mk [{ name := lc "e" }]) =
      validateAgainstSchema { entity := some (lc "e") }
        (Schema.mk [{ name := lc "e" }]) :=
  ⟨validation_vacuous_cases.1 _,
   validation_vacuous_cases.2.1 _ exampleSchema (by rfl),
   validation_vacuous_cases.2.2 { entity := some (lc "e") }
     (Schema.mk [{ name := lc "e" }]) (lc "e") { name := lc "e" }
     (.comparison (lc "zz") (lc "=") (.num (lc "1")))
     (by rfl) (by rfl) (by rfl)⟩

/-- Both halves of the `withReplace` contract, for any base suggestion. -/
theorem withReplace_spec (n : Nat) (b : Suggestion) :
    ((withReplace n b).replacePartial = false → (withReplace n b).replaceLength = 0) ∧
    ((withReplace n b).replacePartial = true → (withReplace n b).replaceLength = n) := by
  unfold withReplace
  by_cases h : b.replacePartial = false
  · simp [h]
  · simp [h]

/-- C8.  Every suggestion `getSuggestions` returns satisfies: if
`replacePartial` is false then `replaceLength = 0`, otherwise
`replaceLength` is the length of the context's partial. -/
theorem suggestion_replace_length_invariant :
    ∀ (ctx : CursorContext) (schema : Schema) (s : Suggestion),
      s ∈ getSuggestions ctx schema →
      (s.replacePartial = false → s.replaceLength = 0) ∧
      (s.replacePartial = true → s.replaceLength = ctx.partialStr.length) := by
  intro ctx schema s hs
  suffices h : ∃ b, s = withReplace ctx.partialStr.length b by
    obtain ⟨b, rfl⟩ := h
    exact withReplace_spec _ _
  cases ctx with
  | topLevel p uk =>
    simp only [getSuggestions, CursorContext.partialStr, List.mem_map] at hs
    obtain ⟨k, -, rfl⟩ := hs
    exact ⟨_, rfl⟩
  | entityValue p =>
    simp only [getSuggestions, CursorContext.partialStr, List.mem_map] at hs
    obtain ⟨k, -, rfl⟩ := hs
    exact ⟨_, rfl⟩
  | limitValue p =>
    simp [getSuggestions] at hs
  | orderValue p ev af =>
    simp only [getSuggestions, CursorContext.partialStr] at hs
    split at hs
    · simp only [List.mem_append, List.mem_map] at hs
      rcases hs with ⟨k, -, rfl⟩ | ⟨k, -, rfl⟩ <;> exact ⟨_, rfl⟩
    · simp only [List.mem_map] at hs
      obtain ⟨k, -, rfl⟩ := hs
      exact ⟨_, rfl⟩
  | includeValue p ev =>
    simp only [getSuggestions, CursorContext.partialStr, List.mem_map] at hs
    obtain ⟨k, -, rfl⟩ := hs
    exact ⟨_, rfl⟩
  | whereField p ev =>
    simp only [getSuggestions, CursorContext.partialStr] at hs
    split at hs <;>
      · simp only [List.mem_map] at hs
        obtain ⟨k, -, rfl⟩ := hs
        exact ⟨_, rfl⟩
  | whereValue p f o ev =>
    simp only [getSuggestions, CursorContext.partialStr, List.mem_map] at hs
    obtain ⟨k, -, rfl⟩ := hs
    exact ⟨_, rfl⟩
  | unknown p =>
    simp [getSuggestions] at hs

/-- C8, witness: the first entity suggestion for partial `u` has
`replacePartial = true` and `replaceLength = 1`. -/
theorem suggestion_replace_length_invariant_witness :
    ((Suggestion.mk (lc "user") (lc "user") true 1).replacePartial = false →
      (Suggestion.mk (lc "user") (lc "user") true 1).replaceLength = 0) ∧
    ((Suggestion.mk (lc "user") (lc "user") true 1).replacePartial = true →
      (Suggestion.mk (lc "user") (lc "user") true 1).replaceLength =
        (CursorContext.entityValue (lc "u")).partialStr.length) :=
  suggestion_replace_length_invariant (.entityValue (lc "u")) exampleSchema
    (Suggestion.mk (lc "user") (lc "user") true 1) (by decide)

/-- `withReplace` does not change the label. -/
theorem withReplace_label (n : Nat) (b : Suggestion) :
    (withReplace n b).label = b.label := by
  unfold withReplace; split <;> rfl

/-- `withReplace` does not change `replacePartial`. -/
theorem withReplace_replacePartial (n : Nat) (b : Suggestion) :
    (withReplace n b).replacePartial = b.replacePartial := by
  unfold withReplace; split <;> rfl

/-- Everything starts with the empty string. -/
theorem lcStartsWith_nil (l : LC) : lcStartsWith l [] = true := by
  cases l <;> rfl

/-- The suggestion filter (`matchesPartial`) implies the case-insensitive
prefix relation. -/
theorem matches_imp_startsWith (p name : LC)
    (h : ((lcToLower p).isEmpty || lcStartsWith (lcToLower name) (lcToLower p)) = true) :
    lcStartsWith (lcToLower name) (lcToLower p) = true := by
  rcases Bool.or_eq_true_iff.mp h with h | h
  · have hp : lcToLower p = [] := by simpa [List.isEmpty_iff] using h
    rw [hp]
    exact lcStartsWith_nil _
  · exact h

/-- A prefix of `x` is a prefix of `x ++ y`. -/
theorem lcStartsWith_append (x y p : LC) (h : lcStartsWith x p = true) :
    lcStartsWith (x ++ y) p = true := by
  unfold lcStartsWith at *
  rw [List.isPrefixOf_iff_prefix] at *
  exact h.trans (x.prefix_append y)

/-- Transitivity of the starts-with relation. -/
theorem lcStartsWith_trans {x y z : LC} (h1 : lcStartsWith y z = true)
    (h2 : lcStartsWith x y = true) : lcStartsWith x z = true := by
  unfold lcStartsWith at *
  rw [List.isPrefixOf_iff_prefix] at *
  exact h1.trans h2

/-- Membership after `addUnique`. -/
theorem mem_addUnique {l : List LC} {v x : LC} (h : x ∈ addUnique l v) :
    x ∈ l ∨ x = v := by
  unfold addUnique at h
  split at h
  · exact .inl h
  · rcases List.mem_append.mp h with h | h
    · exact .inl h
    · exact .inr (List.mem_singleton.mp h)

/-- Membership after `setAssoc`: an old entry, or one keyed by `k`. -/
theorem mem_setAssoc {m : List (LC × FieldDef)} {k : LC} {v : FieldDef}
    {q : LC × FieldDef} (h : q ∈ setAssoc m k v) : q ∈ m ∨ q.1 = k := by
  unfold setAssoc at h
  split at h
  · rcases List.mem_map.mp h with ⟨p, hp, hq⟩
    by_cases hk : p.1 = k
    · simp [hk] at hq
      right
      rw [← hq]
    · simp [hk] at hq
      exact .inl (hq ▸ hp)
  · rcases List.mem_append.mp h with h | h
    · exact .inl h
    · right
      rw [List.mem_singleton.mp h]

/-- Every key the per-entity field fold inserts satisfies the filter. -/
theorem fieldMap_inner_pred (mp : LC → Bool) (flds : List (LC × FieldDef)) :
    ∀ (m : List (LC × FieldDef)), (∀ q ∈ m, mp q.1 = true) →
      ∀ q ∈ flds.foldl (fun m p => if mp p.1 then setAssoc m p.1 p.2 else m) m,
        mp q.1 = true := by
  induction flds with
  | nil => intro m hm q hq; exact hm q hq
  | cons p rest ih =>
    intro m hm q hq
    refine ih _ ?_ q hq
    intro r hr
    by_cases hp : mp p.1 = true
    · simp only [if_pos hp] at hr
      rcases mem_setAssoc hr with h | h
      · exact hm r h
      · rw [h]; exact hp
    · simp only [if_neg hp] at hr
      exact hm r hr

/-- Every key of `buildFieldMap` satisfies the filter. -/
theorem buildFieldMap_pred (mp : LC → Bool) (ents : List EntityDef) :
    ∀ q ∈ buildFieldMap mp ents, mp q.1 = true := by
  unfold buildFieldMap
  suffices h : ∀ (m : List (LC × FieldDef)), (∀ q ∈ m, mp q.1 = true) →
      ∀ q ∈ ents.foldl
        (fun m e => (e.fields.getD []).foldl
          (fun m p => if mp p.1 then setAssoc m p.1 p.2 else m) m) m,
        mp q.1 = true by
    exact h [] (by intro q hq; cases hq)
  induction ents with
  | nil => intro m hm q hq; exact hm q hq
  | cons e rest ih =>
    intro m hm q hq
    exact ih _ (fieldMap_inner_pred mp (e.fields.getD []) m hm) q hq

/-- Every element a filtered `addUnique` fold collects satisfies the
filter. -/
theorem addUnique_fold_pred (mp : LC → Bool) (xs : List LC) :
    ∀ (acc : List LC), (∀ x ∈ acc, mp x = true) →
      ∀ x ∈ xs.foldl (fun acc r => if mp r then addUnique acc r else acc) acc,
        mp x = true := by
  induction xs with
  | nil => intro acc hacc x hx; exact hacc x hx
  | cons v rest ih =>
    intro acc hacc x hx
    refine ih _ ?_ x hx
    intro r hr
    by_cases hv : mp v = true
    · simp only [if_pos hv] at hr
      rcases mem_addUnique hr with h | h
      · exact hacc r h
      · rw [h]; exact hv
    · simp only [if_neg hv] at hr
      exact hacc r hr

/-- Every relation `buildRelationSet` collects satisfies the filter. -/
theorem buildRelationSet_pred (mp : LC → Bool) (ents : List EntityDef) :
    ∀ x ∈ buildRelationSet mp ents, mp x = true := by
  unfold buildRelationSet
  suffices h : ∀ (acc : List LC), (∀ x ∈ acc, mp x = true) →
      ∀ x ∈ ents.foldl
        (fun acc e => (e.relations.getD []).foldl
          (fun acc r => if mp r then addUnique acc r else acc) acc) acc,
        mp x = true by
    exact h [] (by intro x hx; cases hx)
  induction ents with
  | nil => intro acc hacc x hx; exact hacc x hx
  | cons e rest ih =>
    intro acc hacc x hx
    exact ih _ (addUnique_fold_pred mp (e.relations.getD []) acc hacc) x hx

/-- Every value `buildValueSet` collects satisfies the filter. -/
theorem buildValueSet_pred (mp : LC → Bool) (ents : List EntityDef) (field : LC) :
    ∀ x ∈ buildValueSet mp ents field, mp x = true := by
  unfold buildValueSet
  suffices h : ∀ (acc : List LC), (∀ x ∈ acc, mp x = true) →
      ∀ x ∈ ents.foldl
        (fun acc e =>
          match (e.fields.getD []).find? (fun p => p.1 = field) with
          | some fd =>
            match fd.2.values with
            | some vs => vs.foldl (fun acc v => if mp v then addUnique acc v else acc) acc
            | none => acc
          | none => acc) acc,
        mp x = true by
    exact h [] (by intro x hx; cases hx)
  induction ents with
  | nil => intro acc hacc x hx; exact hacc x hx
  | cons e rest ih =>
    intro acc hacc x hx
    refine ih _ ?_ x hx
    intro r hr
    rcases hfd : (e.fields.getD []).find? (fun p => p.1 = field) with - | fd
    · simp only [hfd] at hr
      exact hacc r hr
    · simp only [hfd] at hr
      rcases hv : fd.2.values with - | vs
      · simp only [hv] at hr
        exact hacc r hr
      · simp only [hv] at hr
        exact addUnique_fold_pred mp vs acc hacc r hr

/-- C1, counterexample.  The prefix filter law does NOT hold for every
suggestion: in the where-field context with partial `status` (an exact
field name of the example schema), the exact-match override returns the
six operators, whose labels do not start with `status`. -/
theorem suggestion_prefix_law_cex :
    ¬ (∀ s ∈ getSuggestions (.whereField (lc "status") (lc "user")) exampleSchema,
        lcStartsWith (lcToLower s.label)
          (lcToLower (CursorContext.whereField (lc "status") (lc "user")).partialStr) = true) := by
  decide

/-- C1, amended.  (1) Every suggestion with `replacePartial = true` — that
is, every suggestion except the operators produced by the where-field
exact-match override — has a label that starts, ASCII case-insensitively,
with the context's partial.  (2) The override itself behaves as specified:
when the (non-empty) partial exactly equals a matching field name
(case-sensitively), the output is replaced by the six comparison
operators, each with `replacePartial = false` and `replaceLength = 0`. -/
theorem suggestion_prefix_law :
    (∀ (ctx : CursorContext) (schema : Schema) (s : Suggestion),
      s ∈ getSuggestions ctx schema → s.replacePartial = true →
      lcStartsWith (lcToLower s.label) (lcToLower ctx.partialStr) = true) ∧
    (∀ (p ev : LC) (schema : Schema), p ≠ [] →
      (buildFieldMap
        (fun name => (lcToLower p).isEmpty || lcStartsWith (lcToLower name) (lcToLower p))
        (findRelevantEntities schema ev)).any (fun q => q.1 = p) = true →
      getSuggestions (.whereField p ev) schema =
        WHERE_OPS.map (fun o =>
          { label := o, insertText := o, replacePartial := false,
            replaceLength := 0 })) := by
  constructor
  · intro ctx schema s hs hrp
    cases ctx with
    | topLevel p uk =>
      simp only [getSuggestions, CursorContext.partialStr, List.mem_map,
        List.mem_filter] at hs
      obtain ⟨k, ⟨hkmem, hkpred⟩, rfl⟩ := hs
      rw [withReplace_label]
      have hmatch := (Bool.and_eq_true_iff.mp hkpred).2
      simp only [TOP_LEVEL_KEYS, List.mem_cons, List.not_mem_nil, or_false] at hkmem
      rcases hkmem with rfl | rfl | rfl | rfl | rfl <;>
        exact lcStartsWith_trans (matches_imp_startsWith p _ hmatch) (by decide)
    | entityValue p =>
      simp only [getSuggestions, CursorContext.partialStr, List.mem_map,
        List.mem_filter] at hs
      obtain ⟨e, ⟨-, hpred⟩, rfl⟩ := hs
      rw [withReplace_label]
      exact matches_imp_startsWith p _ hpred
    | limitValue p => simp [getSuggestions] at hs
    | orderValue p ev af =>
      simp only [getSuggestions, CursorContext.partialStr] at hs
      split at hs
      · simp only [List.mem_append, List.mem_map] at hs
        rcases hs with ⟨f, hf, rfl⟩ | ⟨d, hd, rfl⟩
        · rw [withReplace_label]
          obtain ⟨q, hq, rfl⟩ := hf
          exact matches_imp_startsWith p _ (buildFieldMap_pred _ _ q hq)
        · rw [withReplace_label]
          have := (List.mem_filter.mp hd).2
          exact matches_imp_startsWith p _ this
      · simp only [List.mem_map] at hs
        obtain ⟨f, hf, rfl⟩ := hs
        rw [withReplace_label]
        obtain ⟨q, hq, rfl⟩ := hf
        exact matches_imp_startsWith p _ (buildFieldMap_pred _ _ q hq)
    | includeValue p ev =>
      simp only [getSuggestions, CursorContext.partialStr, List.mem_map] at hs
      obtain ⟨r, hr, rfl⟩ := hs
      rw [withReplace_label]
      exact matches_imp_startsWith p _ (buildRelationSet_pred _ _ r hr)
    | whereField p ev =>
      simp only [getSuggestions, CursorContext.partialStr] at hs
      split at hs
      · simp only [List.mem_map] at hs
        obtain ⟨o, -, rfl⟩ := hs
        rw [withReplace_replacePartial] at hrp
        exact absurd hrp (by simp)
      · simp only [List.mem_map] at hs
        obtain ⟨f, hf, rfl⟩ := hs
        rw [withReplace_label]
        obtain ⟨q, hq, rfl⟩ := hf
        exact matches_imp_startsWith p _ (buildFieldMap_pred _ _ q hq)
    | whereValue p f o ev =>
      simp only [getSuggestions, CursorContext.partialStr, List.mem_map] at hs
      obtain ⟨v, hv, rfl⟩ := hs
      rw [withReplace_label]
      exact matches_imp_startsWith p _ (buildValueSet_pred _ _ _ v hv)
    | unknown p => simp [getSuggestions] at hs
  · intro p ev schema h1 h2
    have hp : p.isEmpty = false := by
      cases p
      · exact absurd rfl h1
      · rfl
    simp only [getSuggestions, CursorContext.partialStr, hp, h2, Bool.not_false,
      Bool.and_true, Bool.true_and, if_pos]
    simp [withReplace]

/-- C1, witness: a non-override suggestion satisfying the prefix law, and
a concrete firing of the exact-match override. -/
theorem suggestion_prefix_law_witness :
    lcStartsWith (lcToLower (Suggestion.mk (lc "users") (lc "users") true 1).label)
      (lcToLower (CursorContext.entityValue (lc "u")).partialStr) = true ∧
    getSuggestions (.whereField (lc "status") (lc "user")) exampleSchema =
      WHERE_OPS.map (fun o =>
        { label := o, insertText := o, replacePartial := false,
          replaceLength := 0 }) :=
  ⟨suggestion_prefix_law.1 (.entityValue (lc "u")) exampleSchema
      (Suggestion.mk (lc "users") (lc "users") true 1) (by decide) (by decide),
   suggestion_prefix_law.2 (lc "status") (lc "user") exampleSchema
      (by decide) (by decide)⟩

/-- `wfAndChildren` element-wise. -/
theorem wfAndChildren_iff (l : List RQLCondition) :
    wfAndChildren l = true ↔
      ∀ c ∈ l, isAndNode c = false ∧ wfCond c = true := by
  induction l with
  | nil => simp [wfAndChildren]
  | cons c rest ih =>
    simp only [wfAndChildren, Bool.and_eq_true, Bool.not_eq_true', ih,
      List.mem_cons]
    constructor
    · rintro ⟨⟨h1, h2⟩, h3⟩ x (rfl | hx)
      · exact ⟨h1, h2⟩
      · exact h3 x hx
    · intro h
      exact ⟨⟨(h c (.inl rfl)).1, (h c (.inl rfl)).2⟩, fun x hx => h x (.inr hx)⟩

/-- `wfOrChildren` element-wise. -/
theorem wfOrChildren_iff (l : List RQLCondition) :
    wfOrChildren l = true ↔
      ∀ c ∈ l, isOrNode c = false ∧ wfCond c = true := by
  induction l with
  | nil => simp [wfOrChildren]
  | cons c rest ih =>
    simp only [wfOrChildren, Bool.and_eq_true, Bool.not_eq_true', ih,
      List.mem_cons]
    constructor
    · rintro ⟨⟨h1, h2⟩, h3⟩ x (rfl | hx)
      · exact ⟨h1, h2⟩
      · exact h3 x hx
    · intro h
      exact ⟨⟨(h c (.inl rfl)).1, (h c (.inl rfl)).2⟩, fun x hx => h x (.inr hx)⟩

/-- `andChildren` of a well-formed node: non-empty, and every element is a
well-formed non-`And`. -/
theorem andChildren_wf (t : RQLCondition) (h : wfCond t = true) :
    andChildren t ≠ [] ∧
      ∀ c ∈ andChildren t, isAndNode c = false ∧ wfCond c = true := by
  cases t with
  | comparison f o v =>
    exact ⟨by simp [andChildren], by simp [andChildren, isAndNode, wfCond]⟩
  | and l =>
    simp only [wfCond, Bool.and_eq_true, decide_eq_true_eq] at h
    refine ⟨?_, (wfAndChildren_iff l).mp h.2⟩
    simp only [andChildren]
    intro hl
    rw [hl] at h
    simp at h
  | or l =>
    refine ⟨by simp [andChildren], ?_⟩
    intro c hc
    simp only [andChildren, List.mem_singleton] at hc
    subst hc
    exact ⟨rfl, h⟩

/-- `orChildren` of a well-formed node: non-empty, and every element is a
well-formed non-`Or`. -/
theorem orChildren_wf (t : RQLCondition) (h : wfCond t = true) :
    orChildren t ≠ [] ∧
      ∀ c ∈ orChildren t, isOrNode c = false ∧ wfCond c = true := by
  cases t with
  | comparison f o v =>
    exact ⟨by simp [orChildren], by simp [orChildren, isOrNode, wfCond]⟩
  | or l =>
    simp only [wfCond, Bool.and_eq_true, decide_eq_true_eq] at h
    refine ⟨?_, (wfOrChildren_iff l).mp h.2⟩
    simp only [orChildren]
    intro hl
    rw [hl] at h
    simp at h
  | and l =>
    refine ⟨by simp [orChildren], ?_⟩
    intro c hc
    simp only [orChildren, List.mem_singleton] at hc
    subst hc
    exact ⟨rfl, h⟩

/-- A `flatMap andChildren` over non-empty images is at least as long as
the list. -/
theorem flatMap_andChildren_length (ts : List RQLCondition)
    (h : ∀ t ∈ ts, andChildren t ≠ []) :
    ts.length ≤ (ts.flatMap andChildren).length := by
  induction ts with
  | nil => simp
  | cons t rest ih =>
    simp only [List.flatMap_cons, List.length_append, List.length_cons]
    have h1 : 1 ≤ (andChildren t).length := by
      have := h t (List.mem_cons_self t rest)
      cases hc : andChildren t
      · exact absurd hc this
      · simp
    have h2 := ih (fun x hx => h x (List.mem_cons_of_mem t hx))
    omega

/-- `Except` bind on a success. -/
theorem except_bind_ok {α β : Type} (a : α) (f : α → Except PErr β) :
    (Except.ok a >>= f) = f a := rfl

/-- `Except` bind on a failure. -/
theorem except_bind_err {α β : Type} (e : PErr) (f : α → Except PErr β) :
    ((Except.error e : Except PErr α) >>= f) = .error e := rfl

/-- A successful non-null `parseComparison` result is a comparison node
(hence well-formed). -/
theorem parseComparisonF_wf (toks : List WhereTok)
    (out : Option RQLCondition × List WhereTok)
    (h : parseComparisonF toks = .ok out) :
    ∀ c, out.1 = some c → wfCond c = true := by
  intro c hc
  unfold parseComparisonF at h
  repeat' split at h
  all_goals
    first
    | exact Except.noConfusion h
    | (injection h with h; rw [← h] at hc;
       first
       | exact Option.noConfusion hc
       | (injection hc with hc; rw [← hc]; rfl))

/-- The well-formedness invariant of the recursive-descent where parser,
for every fuel budget: any non-null condition produced by `parsePrimary`,
`parseAnd` or `parseOr` is well-formed, and the `parseAnd` loop preserves
well-formedness of its accumulated terms (extending them). -/
theorem parseF_wf (fuel : Nat) :
    (∀ toks out, parsePrimaryF fuel toks = .ok out →
      ∀ c, out.1 = some c → wfCond c = true) ∧
    (∀ toks out, parseAndF fuel toks = .ok out →
      ∀ c, out.1 = some c → wfCond c = true) ∧
    (∀ toks out, parseOrF fuel toks = .ok out →
      ∀ c, out.1 = some c → wfCond c = true) ∧
    (∀ terms toks out, (∀ t ∈ terms, wfCond t = true) →
      parseAndLoopF fuel terms toks = .ok out →
      (∀ t ∈ out.1, wfCond t = true) ∧ ∃ ext, out.1 = terms ++ ext) := by
  induction fuel with
  | zero =>
    refine ⟨?_, ?_, ?_, ?_⟩
    · intro toks out h c hc; exact absurd h (by simp [parsePrimaryF])
    · intro toks out h c hc; exact absurd h (by simp [parseAndF])
    · intro toks out h c hc; exact absurd h (by simp [parseOrF])
    · intro terms toks out hterms h; exact absurd h (by simp [parseAndLoopF])
  | succ fuel ih =>
    obtain ⟨ihP, ihA, ihO, ihL⟩ := ih
    refine ⟨?_, ?_, ?_, ?_⟩
    -- parsePrimaryF
    · intro toks out h c hc
      simp only [parsePrimaryF] at h
      split at h
      · rename_i rest
        cases ho : parseOrF fuel rest with
        | error e => simp only [ho, except_bind_err] at h; exact Except.noConfusion h
        | ok p =>
          obtain ⟨inner, t1⟩ := p
          simp only [ho, except_bind_ok] at h
          split at h
          · cases inner with
            | none => exact Except.noConfusion h
            | some cc =>
              injection h with h
              rw [← h] at hc
              injection hc with hc
              rw [← hc]
              exact ihO rest _ ho cc rfl
          · exact Except.noConfusion h
      · exact parseComparisonF_wf toks out h c hc
    -- parseAndF
    · intro toks out h c hc
      simp only [parseAndF] at h
      cases hp : parsePrimaryF fuel toks with
      | error e => simp only [hp, except_bind_err] at h; exact Except.noConfusion h
      | ok p =>
        obtain ⟨t0, t1⟩ := p
        simp only [hp, except_bind_ok] at h
        cases t0 with
        | none =>
          injection h with h
          rw [← h] at hc
          exact Option.noConfusion hc
        | some first =>
          have hfirst : wfCond first = true := ihP toks (some first, t1) hp first rfl
          cases hl : parseAndLoopF fuel [first] t1 with
          | error e => simp only [hl, except_bind_err] at h; exact Except.noConfusion h
          | ok q =>
            obtain ⟨terms, t2⟩ := q
            simp only [hl, except_bind_ok] at h
            obtain ⟨hall, ext, hext⟩ := ihL [first] t1 (terms, t2)
              (by intro t ht; rw [List.mem_singleton.mp ht]; exact hfirst) hl
            split at h
            · rename_i single
              injection h with h
              rw [← h] at hc
              injection hc with hc
              rw [← hc]
              exact hall single (List.mem_singleton_self single)
            · rename_i hnot
              injection h with h
              rw [← h] at hc
              injection hc with hc
              rw [← hc]
              simp only at hext
              have hlen2 : 2 ≤ terms.length := by
                rcases ext with - | ⟨e, es⟩
                · simp at hext
                  exact absurd hext (hnot first)
                · rw [hext]
                  simp
              simp only at hall
              simp only [wfCond, Bool.and_eq_true, decide_eq_true_eq]
              refine ⟨?_, (wfAndChildren_iff _).mpr ?_⟩
              · have := flatMap_andChildren_length terms
                  (fun t ht => (andChildren_wf t (hall t ht)).1)
                omega
              · intro cch hcch
                rw [List.mem_flatMap] at hcch
                obtain ⟨t, ht, hcc⟩ := hcch
                exact (andChildren_wf t (hall t ht)).2 cch hcc
    -- parseOrF
    · intro toks out h c hc
      simp only [parseOrF] at h
      cases ha : parseAndF fuel toks with
      | error e => simp only [ha, except_bind_err] at h; exact Except.noConfusion h
      | ok p =>
        obtain ⟨left, t1⟩ := p
        simp only [ha, except_bind_ok] at h
        split at h
        · rename_i t t2
          split at h
          · cases left with
            | none => exact Except.noConfusion h
            | some l =>
              cases ho : parseOrF fuel t2 with
              | error e => simp only [ho, except_bind_err] at h; exact Except.noConfusion h
              | ok q =>
                obtain ⟨right, t3⟩ := q
                simp only [ho, except_bind_ok] at h
                cases right with
                | none => exact Except.noConfusion h
                | some r =>
                  injection h with h
                  rw [← h] at hc
                  injection hc with hc
                  rw [← hc]
                  have hlw : wfCond l = true := ihA toks _ ha l rfl
                  have hrw : wfCond r = true := ihO t2 _ ho r rfl
                  simp only [wfCond, Bool.and_eq_true, decide_eq_true_eq]
                  refine ⟨?_, (wfOrChildren_iff _).mpr ?_⟩
                  · have h1 := (orChildren_wf l hlw).1
                    have h2 := (orChildren_wf r hrw).1
                    rw [List.length_append]
                    have e1 : 1 ≤ (orChildren l).length := by
                      cases hx : orChildren l
                      · exact absurd hx h1
                      · simp
                    have e2 : 1 ≤ (orChildren r).length := by
                      cases hx : orChildren r
                      · exact absurd hx h2
                      · simp
                    omega
                  · intro x hx
                    rcases List.mem_append.mp hx with hx | hx
                    · exact (orChildren_wf l hlw).2 x hx
                    · exact (orChildren_wf r hrw).2 x hx
          · injection h with h
            rw [← h] at hc
            exact ihA toks _ ha c hc
        · injection h with h
          rw [← h] at hc
          exact ihA toks _ ha c hc
    -- parseAndLoopF
    · intro terms toks out hterms h
      simp only [parseAndLoopF] at h
      split at h
      · injection h with h
        rw [← h]
        exact ⟨hterms, [], by simp⟩
      · rename_i t rest
        split at h
        · injection h with h
          rw [← h]
          exact ⟨hterms, [], by simp⟩
        · split at h
          · cases hp : parsePrimaryF fuel rest with
            | error e => simp only [hp, except_bind_err] at h; exact Except.noConfusion h
            | ok p =>
              obtain ⟨term, t2⟩ := p
              simp only [hp, except_bind_ok] at h
              cases term with
              | none => exact Except.noConfusion h
              | some tm =>
                have htm : wfCond tm = true := ihP rest (some tm, t2) hp tm rfl
                obtain ⟨hall, ext, hext⟩ := ihL (terms ++ [tm]) t2 out
                  (by
                    intro x hx
                    rcases List.mem_append.mp hx with hx | hx
                    · exact hterms x hx
                    · rw [List.mem_singleton.mp hx]; exact htm) h
                exact ⟨hall, [tm] ++ ext, by rw [hext, List.append_assoc]⟩
          · cases hp : parsePrimaryF fuel (t :: rest) with
            | error e => simp only [hp, except_bind_err] at h; exact Except.noConfusion h
            | ok p =>
              obtain ⟨term, t2⟩ := p
              simp only [hp, except_bind_ok] at h
              cases term with
              | none =>
                injection h with h
                rw [← h]
                exact ⟨hterms, [], by simp⟩
              | some tm =>
                have htm : wfCond tm = true := ihP (t :: rest) (some tm, t2) hp tm rfl
                obtain ⟨hall, ext, hext⟩ := ihL (terms ++ [tm]) t2 out
                  (by
                    intro x hx
                    rcases List.mem_append.mp hx with hx | hx
                    · exact hterms x hx
                    · rw [List.mem_singleton.mp hx]; exact htm) h
                exact ⟨hall, [tm] ++ ext, by rw [hext, List.append_assoc]⟩

/-- Every condition `parseWhere` returns is well-formed. -/
theorem parseWhere_wf (inner : LC) (c : RQLCondition)
    (h : parseWhere inner = .ok c) : wfCond c = true := by
  unfold parseWhere at h
  cases ht : tokenizeWhere inner with
  | error e => simp only [ht, except_bind_err] at h; exact Except.noConfusion h
  | ok tokens =>
    simp only [ht, except_bind_ok] at h
    split at h
    · exact Except.noConfusion h
    · cases hp : parseOrF (4 * tokens.length + 8) tokens with
      | error e => simp only [hp, except_bind_err] at h; exact Except.noConfusion h
      | ok p =>
        obtain ⟨result, remaining⟩ := p
        simp only [hp, except_bind_ok] at h
        split at h
        · exact Except.noConfusion h
        · cases result with
          | none => exact Except.noConfusion h
          | some cc =>
            injection h with h
            rw [← h]
            exact (parseF_wf (4 * tokens.length + 8)).2.2.1 tokens _ hp cc rfl

/-- Inversion of a successful `Except` bind. -/
theorem except_bind_eq_ok {α β : Type} {x : Except PErr α} {f : α → Except PErr β}
    {b : β} (h : (x >>= f) = .ok b) : ∃ a, x = .ok a ∧ f a = .ok b := by
  cases x with
  | error e => exact Except.noConfusion h
  | ok a => exact ⟨a, rfl, h⟩

/-- A clause either leaves the `where` field unchanged or sets it to a
`parseWhere` result. -/
theorem applyClause_where (out : RQLQuery) (clause : LC) (out' : RQLQuery)
    (h : applyClause out clause = .ok out') :
    out'.where_ = out.where_ ∨
      ∃ inner c, parseWhere inner = .ok c ∧ out'.where_ = some c := by
  unfold applyClause at h
  split at h
  · exact Except.noConfusion h
  · rename_i colon hcoloneq
    generalize hkey : lcToLower (lcTrim (clause.take colon)) = k at h
    generalize hval : lcTrim (clause.drop (colon + 1)) = v at h
    by_cases hk1 : k = lc "entity"
    · rw [if_pos hk1] at h
      split at h
      · exact Except.noConfusion h
      · split at h
        · exact Except.noConfusion h
        · injection h with h; left; rw [← h]
    · rw [if_neg hk1] at h
      by_cases hk2 : k = lc "limit"
      · rw [if_pos hk2] at h
        split at h
        · exact Except.noConfusion h
        · split at h
          · exact Except.noConfusion h
          · split at h
            · exact Except.noConfusion h
            · split at h
              · exact Except.noConfusion h
              · split at h
                · exact Except.noConfusion h
                · injection h with h; left; rw [← h]
      · rw [if_neg hk2] at h
        by_cases hk3 : k = lc "order"
        · rw [if_pos hk3] at h
          split at h
          · exact Except.noConfusion h
          · split at h
            · exact Except.noConfusion h
            · obtain ⟨terms, -, h⟩ := except_bind_eq_ok h
              injection h with h; left; rw [← h]
        · rw [if_neg hk3] at h
          by_cases hk4 : k = lc "include"
          · rw [if_pos hk4] at h
            split at h
            · exact Except.noConfusion h
            · split at h
              · exact Except.noConfusion h
              · obtain ⟨rels, -, h⟩ := except_bind_eq_ok h
                injection h with h; left; rw [← h]
          · rw [if_neg hk4] at h
            by_cases hk5 : k = lc "where"
            · rw [if_pos hk5] at h
              split at h
              · exact Except.noConfusion h
              · split at h
                · exact Except.noConfusion h
                · obtain ⟨inner, -, h⟩ := except_bind_eq_ok h
                  obtain ⟨c, hw, h⟩ := except_bind_eq_ok h
                  injection h with h
                  right
                  exact ⟨inner, c, hw, by rw [← h]⟩
            · rw [if_neg hk5] at h
              exact Except.noConfusion h

/-- The clause fold preserves "every `where` condition is well-formed". -/
theorem foldlM_where_wf (clauses : List LC) :
    ∀ (out q : RQLQuery), (∀ c, out.where_ = some c → wfCond c = true) →
      clauses.foldlM applyClause out = .ok q →
      ∀ c, q.where_ = some c → wfCond c = true := by
  induction clauses with
  | nil =>
    intro out q hinv h c hc
    injection h with h
    rw [← h] at hc
    exact hinv c hc
  | cons cl rest ih =>
    intro out q hinv h c hc
    rw [List.foldlM_cons] at h
    obtain ⟨out1, h1, h2⟩ := except_bind_eq_ok h
    refine ih out1 q ?_ h2 c hc
    intro c' hc'
    rcases applyClause_where out cl out1 h1 with heq | ⟨inner, c2, hw, hsome⟩
    · rw [heq] at hc'
      exact hinv c' hc'
    · rw [hsome] at hc'
      injection hc' with hc'
      rw [← hc']
      exact parseWhere_wf inner c2 hw

/-- C6.  For every input on which `parsePlainText` succeeds, the resulting
where condition (if present) satisfies the flattening invariant: no `And`
has an `And` child, no `Or` has an `Or` child, and every `And`/`Or` node
has at least two children. -/
theorem where_flattening_invariant :
    ∀ (input : LC) (schema : Option Schema) (q : RQLQuery) (c : RQLCondition),
      parsePlainText input schema = .ok q → q.where_ = some c → wfCond c = true := by
  intro input schema q c h hc
  have hcore : parsePlainTextCore input = .ok q := by
    cases schema with
    | none => exact h
    | some s =>
      unfold parsePlainText at h
      obtain ⟨q1, h1, h2⟩ := except_bind_eq_ok h
      obtain ⟨-, -, h3⟩ := except_bind_eq_ok h2
      injection h3 with h3
      rw [h3] at h1
      exact h1
  simp only [parsePlainTextCore] at hcore
  split at hcore
  · injection hcore with hcore
    rw [← hcore] at hc
    exact Option.noConfusion hc
  · obtain ⟨clauses, -, h2⟩ := except_bind_eq_ok hcore
    exact foldlM_where_wf clauses {} q (fun c' hc' => Option.noConfusion hc') h2 c hc

/-- C6, witness: the invariant at the parse of `where:(a=1 b=2)`. -/
theorem where_flattening_invariant_witness :
    wfCond (.and [.comparison (lc "a") (lc "=") (.num (lc "1")),
                  .comparison (lc "b") (lc "=") (.num (lc "2"))]) = true :=
  where_flattening_invariant (lc "where:(a=1 b=2)") none
    { where_ := some (.and [.comparison (lc "a") (lc "=") (.num (lc "1")),
                            .comparison (lc "b") (lc "=") (.num (lc "2"))]) }
    (.and [.comparison (lc "a") (lc "=") (.num (lc "1")),
           .comparison (lc "b") (lc "=") (.num (lc "2"))])
    (by rfl) (by rfl)

/-- Mapping over `none`. -/
theorem opt_map_none {α β : Type} (f : α → β) {x : Option α} (h : x = none) :
    x.map f = none := by rw [h]; rfl

/-- The where-inner tokenizer is STUCK on `!b`: the `!` is not an operator
prefix (no `=` follows), and the unquoted-word scan takes zero characters
and pushes nothing, so the loop repeats the identical state.  No step
budget suffices — the JS loop runs forever. -/
theorem acTokLoop_stuck_excl : ∀ fuel : Nat, acTokLoop fuel (lc "!b") = none := by
  intro fuel
  induction fuel with
  | zero => rfl
  | succ n ih =>
    have step : acTokLoop (n + 1) (lc "!b") = acTokLoop n (lc "!b") := rfl
    rw [step]
    exact ih

/-- After consuming the word `a`, tokenizing `a!b` reaches the stuck
state. -/
theorem acTokLoop_a_excl_b : ∀ fuel : Nat, acTokLoop fuel (lc "a!b") = none := by
  intro fuel
  cases fuel with
  | zero => rfl
  | succ n =>
    have step : acTokLoop (n + 1) (lc "a!b") =
        (acTokLoop n (lc "!b")).map (ACTok.word (lc "a") :: ·) := rfl
    rw [step, acTokLoop_stuck_excl n]
    rfl

/-- C4 (code bug).  The autocomplete pipeline does NOT return on every
input: on the query `where:(a!b)` with the cursor at its end, `getContext`
reaches `tokenizeWhereInner` on the inner text `a!b`, whose scan loop
stops advancing at the stray `!` — in the source an infinite loop.  In the
fuel-indexed embedding: for *every* step budget the pipeline fails to
produce a context (and hence suggestions), i.e. the computation diverges.
(`parse.ts`'s own tokenizer raises `Unexpected character` here instead of
looping; the autocomplete version dropped the throw without adding an
advance.) -/
theorem autocomplete_where_tokenizer_diverges :
    ∀ fuel : Nat,
      getContext fuel (lc "where:(a!b)") 11 = none ∧
      getSuggestionsAtCursor fuel (lc "where:(a!b)") 11 exampleSchema = none := by
  intro fuel
  have hpwi : parseWhereInner fuel (lc "a!b") = none :=
    opt_map_none _ (acTokLoop_a_excl_b fuel)
  constructor
  · exact opt_map_none _ hpwi
  · exact opt_map_none _ (opt_map_none _ hpwi)
